import Mathlib

/-!
Verification development for the deterministic comparison-matrix builder
(`matrix.py`): topic extraction from markdown reports, two-pass cross-source
topic matching, citation overlap, and matrix assembly.

The Python source is embedded shallowly: strings are `String`/`List Char`,
Python sets are `Finset`, floats are modelled by `ℚ` (all similarity scores in
the source are ratios of small integers), dict-of-list inputs are association
lists in insertion order, and the stateful matching passes are explicit folds.
Python dict keys are unique, so association-list inputs are faithful whenever
the source names are distinct; iteration over a cluster dict follows the fixed
source-name insertion order, which the embedding realises as positional slots.
-/

namespace DR

/-- Word count threshold separating detailed from mentioned coverage. -/
def DETAILED_WORD_THRESHOLD : ℕ := 100

/-- Minimum Jaccard similarity for fuzzy heading match (Pass 1).
Rationals are constructed with mkRat throughout (rather than the field
operations of ℚ) so that every score evaluates by kernel reduction; the
lemmas named eq_div below restate each construction as the division
appearing in the source. -/
def FUZZY_MATCH_THRESHOLD : ℚ := mkRat 60 100

/-- Minimum Jaccard similarity for content-based match (Pass 2). -/
def CONTENT_MATCH_THRESHOLD : ℚ := mkRat 30 100

/-- The literal 1e-9 used to seed the running best score just below threshold. -/
def EPS : ℚ := mkRat 1 1000000000

/-- The Pass 1 seed value FUZZY_MATCH_THRESHOLD - EPS, in constructed form
(see FUZZY_SEED_eq below). -/
def FUZZY_SEED : ℚ := mkRat 599999999 1000000000

/-- The Pass 2 seed value CONTENT_MATCH_THRESHOLD - EPS, in constructed form
(see CONTENT_SEED_eq below). -/
def CONTENT_SEED : ℚ := mkRat 299999999 1000000000

/-- Python whitespace class (ASCII part of the regex class and of str.split). -/
def pyIsSpace (c : Char) : Bool :=
  c == ' ' || c == '\t' || c == '\n' || c == '\r' || c == '\x0b' || c == '\x0c'

/-- Python str.strip on a character list. -/
def pyStrip (l : List Char) : List Char :=
  ((l.dropWhile pyIsSpace).reverse.dropWhile pyIsSpace).reverse

/-- Helper for pySplit: accumulates the current word reversed. -/
def pySplitAux : List Char → List Char → List (List Char)
  | [], acc => if acc = [] then [] else [acc.reverse]
  | c :: rest, acc =>
    if pyIsSpace c then
      if acc = [] then pySplitAux rest [] else acc.reverse :: pySplitAux rest []
    else pySplitAux rest (c :: acc)

/-- Python str.split with no separator: split on whitespace runs, no empties. -/
def pySplit (l : List Char) : List (List Char) := pySplitAux l []

/-- English stop words excluded from body keyword extraction. -/
def STOP_WORDS : Finset String :=
  ([ "the", "a", "an", "is", "are", "was", "were", "be", "been", "being",
     "have", "has", "had", "do", "does", "did", "will", "would", "shall",
     "should", "may", "might", "can", "could", "must", "to", "of", "in",
     "for", "on", "with", "at", "by", "from", "as", "into", "through",
     "during", "before", "after", "above", "below", "between", "but", "and",
     "or", "nor", "not", "no", "so", "if", "then", "than", "that", "this",
     "these", "those", "it", "its", "they", "them", "their", "he", "she",
     "we", "you", "who", "which", "what", "when", "where", "how", "also",
     "very", "more", "most", "other", "some", "such", "only", "same",
     "just", "about", "each", "all", "both", "few", "many", "much", "any",
     "own" ] : List String).toFinset

/-- Keeps a body word after punctuation stripping, as in _extract_body_keywords. -/
def keepKeyword (w : List Char) : Option String :=
  let cleaned := w.filter (fun ch => decide (('a' ≤ ch ∧ ch ≤ 'z') ∨ ('0' ≤ ch ∧ ch ≤ '9')))
  if 1 < cleaned.length ∧ String.mk cleaned ∉ STOP_WORDS then some (String.mk cleaned)
  else none

/-- _extract_body_keywords: significant keywords of a section body, as a
deduplicated list (the value-level model of the Python set). -/
def _extract_body_keywords (text : List Char) : List String :=
  ((pySplit (text.map Char.toLower)).filterMap keepKeyword).dedup

/-- _jaccard_similarity_sets: Jaccard similarity of two keyword sets, given as
deduplicated lists; intersection and union lengths equal the set cardinalities. -/
def _jaccard_similarity_sets (a b : List String) : ℚ :=
  if a = [] ∧ b = [] then 1
  else if a = [] ∨ b = [] then 0
  else mkRat ((a ∩ b).length : ℤ) ((a ∪ b).length)

/-- Word set of a lowered, whitespace-split string. -/
def pyWordSet (s : String) : Finset String :=
  ((pySplit (s.data.map Char.toLower)).map String.mk).toFinset

/-- _jaccard_similarity: Jaccard similarity of the word sets of two strings. -/
def _jaccard_similarity (a b : String) : ℚ :=
  let words_a := if pyStrip a.data = [] then (∅ : Finset String) else pyWordSet a
  let words_b := if pyStrip b.data = [] then (∅ : Finset String) else pyWordSet b
  if words_a = ∅ ∧ words_b = ∅ then 1
  else if words_a = ∅ ∨ words_b = ∅ then 0
  else mkRat ((words_a ∩ words_b).card : ℤ) ((words_a ∪ words_b).card)

/-- The character class [0-9A-Za-z] of the numbering-strip regex. -/
def isAlnumAZ (c : Char) : Bool :=
  decide (('0' ≤ c ∧ c ≤ '9') ∨ ('A' ≤ c ∧ c ≤ 'Z') ∨ ('a' ≤ c ∧ c ≤ 'z'))

/-- Strip a leading dash/bullet followed by whitespace. -/
def stripBullet (l : List Char) : List Char :=
  match l with
  | c :: rest =>
    if (c = '-' ∨ c = '*' ∨ c = '•') ∧ rest.takeWhile pyIsSpace ≠ [] then
      rest.dropWhile pyIsSpace
    else l
  | [] => []

/-- Strip a leading alphanumeric numbering such as 1. or a) followed by whitespace. -/
def stripNumbering (l : List Char) : List Char :=
  let r := l.takeWhile isAlnumAZ
  match l.drop r.length with
  | c :: rest2 =>
    if r ≠ [] ∧ (c = '.' ∨ c = ')') ∧ rest2.takeWhile pyIsSpace ≠ [] then
      rest2.dropWhile pyIsSpace
    else l
  | [] => l

/-- Trailing punctuation stripped by _normalize_heading. -/
def isTrailPunct (c : Char) : Bool :=
  c == ':' || c == '.' || c == ',' || c == ';' || c == '!' || c == '?'

/-- rstrip of the trailing punctuation class. -/
def rstripPunct (l : List Char) : List Char :=
  (l.reverse.dropWhile isTrailPunct).reverse

/-- Helper replacing each whitespace run with a single space. -/
def collapseWsAux : Bool → List Char → List Char
  | _, [] => []
  | prevWs, c :: rest =>
    if pyIsSpace c then
      if prevWs then collapseWsAux true rest else ' ' :: collapseWsAux true rest
    else c :: collapseWsAux false rest

/-- Collapse internal whitespace runs to single spaces. -/
def collapseWs (l : List Char) : List Char := collapseWsAux false l

/-- _normalize_heading: comparison key of a raw heading. -/
def _normalize_heading (text : String) : String :=
  let s := pyStrip text.data
  let s := stripBullet s
  let s := stripNumbering s
  let s := rstripPunct s
  let s := collapseWs s
  String.mk ((pyStrip s).map Char.toLower)

/-- Remainder of the text after an http or https scheme marker, if one starts here. -/
def urlRest (l : List Char) : Option (List Char) :=
  if ("http://".data).isPrefixOf l then some (l.drop 7)
  else if ("https://".data).isPrefixOf l then some (l.drop 8) else none

/-- Fuelled scan counting non-overlapping matches of the URL regex.
Fuel equal to the text length always suffices: every step consumes at least
one character. -/
def countUrlsFuel : ℕ → List Char → ℕ
  | 0, _ => 0
  | _ + 1, [] => 0
  | fuel + 1, c :: rest =>
    match urlRest (c :: rest) with
    | some rem =>
      let tail := rem.takeWhile (fun x => !pyIsSpace x)
      if tail.length = 0 then countUrlsFuel fuel rest
      else 1 + countUrlsFuel fuel (rem.drop tail.length)
    | none => countUrlsFuel fuel rest

/-- _count_urls: number of http or https URLs in a block of text. -/
def _count_urls (l : List Char) : ℕ := countUrlsFuel l.length l

/-- A single section extracted from a source report. -/
structure Topic where
  heading : String
  raw_heading : String
  level : ℕ
  word_count : ℕ
  coverage : String
  citations_in_section : ℕ
  body_keywords : List String
  deriving DecidableEq

instance : Inhabited Topic := ⟨⟨"", "", 0, 0, "", 0, []⟩⟩

/-- Number of leading hash characters. -/
def countHashes : List Char → ℕ
  | '#' :: rest => countHashes rest + 1
  | _ => 0

/-- Backtracking for the heading regex when its whitespace run reaches the end
of input: the largest offset at least 1 inside the run holding a non-newline
character, at which the final greedy group can still start. -/
def wsBacktrack (ws : List Char) : Option ℕ :=
  ((ws.enum.filter (fun p => decide (1 ≤ p.1) && decide (p.2 ≠ '\n'))).map Prod.fst).max?

/-- One attempted match of the multiline heading regex at a line start.
Returns the level, the text group, and the total match length. -/
def tryHeadingMatch (l : List Char) : Option (ℕ × List Char × ℕ) :=
  let n := countHashes l
  if 1 ≤ n ∧ n ≤ 4 then
    let afterH := l.drop n
    let ws := afterH.takeWhile pyIsSpace
    if ws.length = 0 then none
    else
      match afterH.drop ws.length with
      | _ :: _ =>
        let g2 := (afterH.drop ws.length).takeWhile (fun c => decide (c ≠ '\n'))
        some (n, g2, n + ws.length + g2.length)
      | [] =>
        match wsBacktrack ws with
        | some w =>
          let g2 := (ws.drop w).takeWhile (fun c => decide (c ≠ '\n'))
          some (n, g2, n + w + g2.length)
        | none => none
  else none

/-- One heading-regex match: start offset, level, text group, end offset. -/
structure HeadingHit where
  mstart : ℕ
  level : ℕ
  grp : List Char
  mend : ℕ
  deriving DecidableEq

/-- Fuelled model of finditer over the heading regex. Fuel equal to the text
length always suffices: every step consumes at least one character. -/
def finditerFuel : ℕ → List Char → ℕ → Bool → List HeadingHit
  | 0, _, _, _ => []
  | _ + 1, [], _, _ => []
  | fuel + 1, c :: rest, pos, atStart =>
    match (if atStart then tryHeadingMatch (c :: rest) else none) with
    | some (lvl, g2, len) =>
      { mstart := pos, level := lvl, grp := g2, mend := pos + len } ::
        finditerFuel fuel ((c :: rest).drop len) (pos + len) false
    | none => finditerFuel fuel rest (pos + 1) (decide (c = '\n'))

/-- All heading-regex matches of a report, in document order. -/
def headingMatches (report : String) : List HeadingHit :=
  finditerFuel report.data.length report.data 0 true

/-- Build the Topic of one matched heading section. -/
def mkHeadingTopic (chars : List Char) (m : HeadingHit) (bodyEnd : ℕ) : Topic :=
  let raw_heading := String.mk (pyStrip m.grp)
  let body := (chars.take bodyEnd).drop m.mend
  let wc := (pySplit body).length
  { heading := _normalize_heading raw_heading
    raw_heading := raw_heading
    level := m.level
    word_count := wc
    coverage := if DETAILED_WORD_THRESHOLD ≤ wc then "detailed" else "mentioned"
    citations_in_section := _count_urls body
    body_keywords := _extract_body_keywords body }

/-- Sections between successive heading matches (last section runs to the end). -/
def sectionsOf (chars : List Char) : List HeadingHit → List Topic
  | [] => []
  | m :: rest =>
    let bodyEnd := match rest with
      | m2 :: _ => m2.mstart
      | [] => chars.length
    mkHeadingTopic chars m bodyEnd :: sectionsOf chars rest

/-- extract_topics: topics of a markdown report. Empty or whitespace-only input
yields an empty list; flat text yields one synthetic topic. -/
def extract_topics (report : String) : List Topic :=
  if pyStrip report.data = [] then []
  else
    let ms := headingMatches report
    if ms = [] then
      let wc := (pySplit report.data).length
      [{ heading := "(no headings)"
         raw_heading := "(no headings)"
         level := 1
         word_count := wc
         coverage := if DETAILED_WORD_THRESHOLD ≤ wc then "detailed" else "mentioned"
         citations_in_section := _count_urls report.data
         body_keywords := _extract_body_keywords report.data }]
    else sectionsOf report.data ms

/-- A topic cluster matched across sources, in serialisable form: canonical
name, per-source coverage pairs in source order, agreement, match method. -/
structure MatchedTopic where
  canonical_name : String
  coverage : List (String × String)
  agreement_level : String
  match_method : String
  deriving DecidableEq

/-- One working cluster of the matcher: one optional Topic slot per source in
source order, the current match method, and the absorption marker. -/
structure Cluster where
  topics : List (Option Topic)
  match_method : String
  merged_into : Option ℕ
  deriving DecidableEq

instance : Inhabited Cluster := ⟨⟨[], "", none⟩⟩

/-- Final acceptance check of _best_match: the tracked best index is returned
only when its score reached the fuzzy threshold. -/
def bmFinish (bestIdx : Option ℕ) (bestScore : ℚ) : Option (ℕ × ℚ) :=
  match bestIdx with
  | some i => if FUZZY_MATCH_THRESHOLD ≤ bestScore then some (i, bestScore) else none
  | none => none

/-- Candidate loop of _best_match: skip used indices, return immediately on an
exact heading match, otherwise track the strictly best Jaccard score. -/
def bmLoop (needle : Topic) (used : Finset ℕ) :
    List Topic → ℕ → Option ℕ → ℚ → Option (ℕ × ℚ)
  | [], _, bestIdx, bestScore => bmFinish bestIdx bestScore
  | c :: rest, idx, bestIdx, bestScore =>
    if idx ∈ used then bmLoop needle used rest (idx + 1) bestIdx bestScore
    else if needle.heading = c.heading then some (idx, 1)
    else
      let score := _jaccard_similarity needle.heading c.heading
      if bestScore < score then bmLoop needle used rest (idx + 1) (some idx) score
      else bmLoop needle used rest (idx + 1) bestIdx bestScore

/-- _best_match: best heading-based match for needle among unused candidates. -/
def _best_match (needle : Topic) (candidates : List Topic) (used : Finset ℕ) :
    Option (ℕ × ℚ) :=
  bmLoop needle used candidates 0 none FUZZY_SEED

/-- State of the Pass 1 inner loop over the other sources. -/
structure InnerState where
  slots : List (Option Topic)
  used : List (Finset ℕ)
  method : String

/-- Pass 1 inner loop body for one other source pb: try _best_match against its
unassigned topics, record an accepted candidate, and update the method. -/
def pass1Step (lists : List (List Topic)) (anchor : Topic) (pa : ℕ)
    (st : InnerState) (pb : ℕ) : InnerState :=
  if pb = pa then st
  else
    match _best_match anchor (lists.getD pb []) (st.used.getD pb ∅) with
    | none => st
    | some (idx, score) =>
      { slots := st.slots.set pb (some ((lists.getD pb []).getD idx default))
        used := st.used.set pb (insert idx (st.used.getD pb ∅))
        method :=
          if score = 1 then
            if st.method = "unmatched" then "exact" else st.method
          else
            if st.method = "unmatched" then "heading-fuzzy" else st.method }

/-- Pass 1 loop over the topics of anchor source pa, threading the used sets
and appending one cluster per not-yet-assigned anchor topic. -/
def pass1Topics (lists : List (List Topic)) (n : ℕ) (pa : ℕ) :
    List Topic → ℕ → List (Finset ℕ) × List Cluster → List (Finset ℕ) × List Cluster
  | [], _, st => st
  | t :: rest, ai, (used, clusters) =>
    if ai ∈ used.getD pa ∅ then pass1Topics lists n pa rest (ai + 1) (used, clusters)
    else
      let slots0 : List (Option Topic) :=
        (List.range n).map (fun k => if k = pa then some t else none)
      let used1 := used.set pa (insert ai (used.getD pa ∅))
      let fin := (List.range n).foldl (pass1Step lists t pa) ⟨slots0, used1, "unmatched"⟩
      pass1Topics lists n pa rest (ai + 1)
        (fin.used, clusters ++ [⟨fin.slots, fin.method, none⟩])

/-- Pass 1: heading-based matching over all sources in insertion order. -/
def pass1 (lists : List (List Topic)) : List (Finset ℕ) × List Cluster :=
  (List.range lists.length).foldl
    (fun st pa => pass1Topics lists lists.length pa (lists.getD pa []) 0 st)
    (List.replicate lists.length ∅, [])

/-- Source name and Topic of the first non-absent slot of a cluster. -/
def firstPresentName (providers : List String) (slots : List (Option Topic)) :
    Option (String × Topic) :=
  slots.enum.findSome? (fun p => p.2.map (fun t => (providers.getD p.1 "", t)))

/-- Pass 2 partner search loop over later clusters, tracking the strictly best
keyword Jaccard similarity against eligible unmatched clusters. -/
def fbjLoop (providers : List String) (i : ℕ) (anchorA : String) (kwsA : List String) :
    List Cluster → ℕ → Option ℕ → ℚ → Option ℕ
  | [], _, bestJ, _ => bestJ
  | cb :: rest, j, bestJ, bestSim =>
    if j ≤ i then fbjLoop providers i anchorA kwsA rest (j + 1) bestJ bestSim
    else if cb.match_method ≠ "unmatched" then
      fbjLoop providers i anchorA kwsA rest (j + 1) bestJ bestSim
    else if cb.merged_into ≠ none then
      fbjLoop providers i anchorA kwsA rest (j + 1) bestJ bestSim
    else
      match firstPresentName providers cb.topics with
      | none => fbjLoop providers i anchorA kwsA rest (j + 1) bestJ bestSim
      | some (anchorB, topicB) =>
        if anchorB = anchorA then fbjLoop providers i anchorA kwsA rest (j + 1) bestJ bestSim
        else if topicB.body_keywords = [] then
          fbjLoop providers i anchorA kwsA rest (j + 1) bestJ bestSim
        else
          let sim := _jaccard_similarity_sets kwsA topicB.body_keywords
          if bestSim < sim then fbjLoop providers i anchorA kwsA rest (j + 1) (some j) sim
          else fbjLoop providers i anchorA kwsA rest (j + 1) bestJ bestSim

/-- Pass 2 partner search for cluster i, seeded just below the content
threshold; the result is merged without a further threshold recheck. -/
def findBestJ (providers : List String) (clusters : List Cluster) (i : ℕ)
    (anchorA : String) (kwsA : List String) : Option ℕ :=
  fbjLoop providers i anchorA kwsA clusters 0 none CONTENT_SEED

/-- Copy every non-absent slot of the partner into empty slots of this cluster,
never overwriting a populated slot. Cluster slot lists always run over the same
sources in the same order, so the pointwise walk mirrors the dict loop. -/
def mergeSlots : List (Option Topic) → List (Option Topic) → List (Option Topic)
  | [], _ => []
  | sa :: a, [] => sa :: a
  | sa :: a, sb :: b =>
    (match sa with
     | none => sb
     | some t => some t) :: mergeSlots a b

/-- One Pass 2 step: if cluster i is still unmatched and unabsorbed and its
anchor has body keywords, merge the best later eligible partner into it. -/
def pass2Step (providers : List String) (clusters : List Cluster) (i : ℕ) :
    List Cluster :=
  let ca := clusters.getD i default
  if ca.match_method ≠ "unmatched" then clusters
  else if ca.merged_into ≠ none then clusters
  else
    match firstPresentName providers ca.topics with
    | none => clusters
    | some (anchorA, topicA) =>
      if topicA.body_keywords = [] then clusters
      else
        match findBestJ providers clusters i anchorA topicA.body_keywords with
        | none => clusters
        | some bj =>
          let cb := clusters.getD bj default
          let clusters1 := clusters.set i
            { ca with topics := mergeSlots ca.topics cb.topics,
                      match_method := "content-fuzzy" }
          clusters1.set bj { cb with merged_into := some i }

/-- Pass 2: content-based merging of still-unmatched clusters, in order. -/
def pass2 (providers : List String) (clusters : List Cluster) : List Cluster :=
  (List.range clusters.length).foldl (pass2Step providers) clusters

/-- Python max with key len over a non-empty list: first maximum wins. -/
def pyMaxByLen (l : List String) : String :=
  match l with
  | [] => ""
  | h :: t => t.foldl (fun best s => if best.length < s.length then s else best) h

/-- Convert one surviving cluster to a MatchedTopic. -/
def matchedOfCluster (providers : List String) (active : ℕ) (c : Cluster) :
    MatchedTopic :=
  let present := c.topics.filterMap id
  let canonical := pyMaxByLen (present.map Topic.heading)
  let coverage := (List.range providers.length).map
    (fun k => (providers.getD k "", (c.topics.getD k none).elim "absent" Topic.coverage))
  let present_count := (coverage.map Prod.snd).countP (fun v => decide (v ≠ "absent"))
  let agreement :=
    if active = 1 then "unique-" ++ providers.headD ""
    else if present_count = active then "consensus"
    else if 2 ≤ present_count then "majority"
    else "unique-" ++ ((coverage.find? (fun pv => decide (pv.2 ≠ "absent"))).elim "" Prod.fst)
  { canonical_name := canonical
    coverage := coverage
    agreement_level := agreement
    match_method := c.match_method }

/-- The clusters that survive both passes (absorbed clusters removed). -/
def survivingClusters (provider_topics : List (String × List Topic)) : List Cluster :=
  (pass2 (provider_topics.map Prod.fst) (pass1 (provider_topics.map Prod.snd)).2).filter
    (fun c => c.merged_into = none)

/-- match_topics: cluster topics across sources into MatchedTopic records. -/
def match_topics (provider_topics : List (String × List Topic)) : List MatchedTopic :=
  let providers := provider_topics.map Prod.fst
  if providers = [] then []
  else
    (survivingClusters provider_topics).map
      (matchedOfCluster providers providers.length)

/-- A citation entry: a bare string, a JSON object whose url field (when the
key exists) is a string, or any other value. -/
inductive Citation where
  | str (s : String)
  | dict (url : Option String)
  | other
  deriving DecidableEq

/-- A consumed source record: source name, success flag, report, citations. -/
structure ProviderResult where
  provider : String
  success : Bool
  report : String
  citations : List Citation
  deriving DecidableEq

/-- Loop body of _extract_urls. A dict url is tested for truthiness before
stripping; a bare string after stripping; other entries are skipped. -/
def extractUrlStep (urls : List String) (c : Citation) : List String :=
  match c with
  | Citation.dict u =>
    let url := u.getD ""
    if url ≠ "" then urls ++ [String.mk (pyStrip url.data)] else urls
  | Citation.str s =>
    let url := String.mk (pyStrip s.data)
    if url ≠ "" then urls ++ [url] else urls
  | Citation.other => urls

/-- _extract_urls: the distinct normalized URL strings of a citations list
(the value-level model of the Python set). -/
def _extract_urls (citations : List Citation) : List String :=
  (citations.foldl extractUrlStep []).dedup

/-- Python string comparison: lexicographic on code points. -/
def pyStrLt : List Char → List Char → Bool
  | [], [] => false
  | [], _ :: _ => true
  | _ :: _, [] => false
  | a :: as, b :: bs =>
    if a < b then true
    else if b < a then false
    else pyStrLt as bs

/-- Non-strict Python string comparison. -/
def pyStrLe (a b : String) : Bool := !pyStrLt b.data a.data

/-- Ordered insertion used by the model of Python sorted. -/
def pySortInsert (s : String) : List String → List String
  | [] => [s]
  | x :: xs => if pyStrLe s x then s :: x :: xs else x :: pySortInsert s xs

/-- Python sorted on a list of strings: ascending code-point order.
All lists sorted in this development come from sets, so stability never
matters and insertion sort realises sorted exactly. -/
def pySorted : List String → List String
  | [] => []
  | x :: xs => pySortInsert x (pySorted xs)

/-- The set of sources contributing a given URL. The Python loop builds this
map extensionally (its set-iteration order cannot affect the result). -/
def urlProviders (results : List ProviderResult) (url : String) : List String :=
  ((results.filter (fun r => url ∈ _extract_urls r.citations)).map
    ProviderResult.provider).dedup

/-- All distinct URLs cited by any of the given results. -/
def allUrls (results : List ProviderResult) : List String :=
  (results.foldl (fun acc r => acc ++ _extract_urls r.citations) []).dedup

/-- _compute_citation_overlap: URLs cited by 2 or more sources, keys in sorted
URL order, values sorted source-name lists. -/
def _compute_citation_overlap (results : List ProviderResult) :
    List (String × List String) :=
  (pySorted (allUrls results)).filterMap
    (fun url =>
      let provs := urlProviders results url
      if 2 ≤ provs.length then some (url, pySorted provs) else none)

/-- Python str.startswith. -/
def pyStartswith (s pre : String) : Bool := pre.data.isPrefixOf s.data

/-- An unmatched-topic hint record. -/
structure Hint where
  provider : String
  heading : String
  top_keywords : List String
  deriving DecidableEq

/-- Aggregate counts of the matrix. -/
structure Stats where
  total_topics : ℕ
  consensus : ℕ
  majority : ℕ
  unique : ℕ
  deriving DecidableEq

/-- Full cross-source comparison matrix. -/
structure ComparisonMatrix where
  topics : List MatchedTopic
  providers : List String
  citation_overlap : List (String × List String)
  stats : Stats
  unmatched_hints : List Hint
  deriving DecidableEq

/-- Hints for clusters left unmatched after both passes: owning source, its
canonical heading, and up to 20 sorted keywords of the matching Topic. -/
def hintsOf (provider_topics : List (String × List Topic))
    (matched : List MatchedTopic) : List Hint :=
  matched.filterMap (fun t =>
    if t.match_method ≠ "unmatched" then none
    else
      match t.coverage.find? (fun pv => decide (pv.2 ≠ "absent")) with
      | none => none
      | some pv =>
        let tl := ((provider_topics.find? (fun q => q.1 = pv.1)).map Prod.snd).getD []
        let kws :=
          match tl.find? (fun topic => topic.heading = t.canonical_name) with
          | some tp =>
            if tp.body_keywords ≠ [] then (pySorted tp.body_keywords).take 20 else []
          | none => []
        some ⟨pv.1, t.canonical_name, kws⟩)

/-- build_matrix: assemble the comparison matrix from source results.
Only successful results contribute; none at all yields the empty matrix. -/
def build_matrix (results : List ProviderResult) : ComparisonMatrix :=
  let successful := results.filter (fun r => r.success)
  if successful = [] then
    { topics := [], providers := [], citation_overlap := [],
      stats := ⟨0, 0, 0, 0⟩, unmatched_hints := [] }
  else
    let providers := successful.map ProviderResult.provider
    let provider_topics := successful.map (fun r => (r.provider, extract_topics r.report))
    let matched := match_topics provider_topics
    { topics := matched
      providers := providers
      citation_overlap := _compute_citation_overlap successful
      stats :=
        { total_topics := matched.length
          consensus := matched.countP (fun t => decide (t.agreement_level = "consensus"))
          majority := matched.countP (fun t => decide (t.agreement_level = "majority"))
          unique := matched.countP (fun t => pyStartswith t.agreement_level "unique-") }
      unmatched_hints := hintsOf provider_topics matched }

/-! ### Statement-support definitions

Derived views of the embedded state used to phrase the verified properties:
multisets of carried topics, per-source used-index multisets, prefixes of the
Pass 2 run, and cluster eligibility as checked by the Pass 2 loop. -/

/-- The multiset of topics carried by a slot list. -/
def slotsMS (s : List (Option Topic)) : Multiset Topic := (s.filterMap id : List Topic)

/-- The multiset of all topics carried by the surviving (unabsorbed) clusters. -/
def survMS (cs : List Cluster) : Multiset Topic :=
  ((cs.filter (fun c => c.merged_into = none)).map (fun c => slotsMS c.topics)).sum

/-- The multiset of all topics carried by any cluster of a list. -/
def allMS (cs : List Cluster) : Multiset Topic :=
  (cs.map (fun c => slotsMS c.topics)).sum

/-- Topics of one source list sitting at indices of the used set,
scanned from a starting index. -/
def usedMSpAux (u : Finset ℕ) : List Topic → ℕ → Multiset Topic
  | [], _ => 0
  | t :: rest, i => (if i ∈ u then {t} else 0) + usedMSpAux u rest (i + 1)

/-- Topics of one source list sitting at indices of the used set. -/
def usedMSp (l : List Topic) (u : Finset ℕ) : Multiset Topic := usedMSpAux u l 0

/-- Topics of all source lists sitting at their used indices. -/
def usedMS : List (List Topic) → List (Finset ℕ) → Multiset Topic
  | [], _ => 0
  | _ :: _, [] => 0
  | l :: ls, u :: us => usedMSp l u + usedMS ls us

/-- The multiset of every topic of every source list. -/
def inputMS (lists : List (List Topic)) : Multiset Topic := (lists.flatten : List Topic)

/-- A slot list holding exactly one topic, at slot k. -/
def slotSingle (s : List (Option Topic)) (k : ℕ) : Prop :=
  (∃ t, s.getD k none = some t) ∧ ∀ j, j ≠ k → s.getD j none = none

/-- The state of the cluster list after the first i steps of Pass 2. -/
def pass2Upto (providers : List String) (clusters : List Cluster) (i : ℕ) :
    List Cluster :=
  (List.range i).foldl (pass2Step providers) clusters

/-- Cluster j is still unmatched and has not been absorbed: the conditions the
Pass 2 loop checks before considering a cluster on either side of a merge. -/
def openUnmatched (cs : List Cluster) (j : ℕ) : Prop :=
  j < cs.length ∧ (cs.getD j default).match_method = "unmatched" ∧
    (cs.getD j default).merged_into = none

/-- The anchor source name and anchor topic of cluster j, as recomputed by the
Pass 2 loop: the first non-absent slot. -/
def clusterAnchor (providers : List String) (cs : List Cluster) (j : ℕ) :
    Option (String × Topic) :=
  firstPresentName providers (cs.getD j default).topics

/-- Cluster j is an eligible Pass 2 partner for the cluster at index i anchored
on source nmA: strictly later in the list, still open and unmatched, anchored
on a different source, and with non-empty anchor body keywords — exactly the
guards the Pass 2 partner loop checks. -/
def eligPartner (providers : List String) (cs : List Cluster) (i : ℕ)
    (nmA : String) (j : ℕ) : Prop :=
  i < j ∧ openUnmatched cs j ∧
    ∃ nmB tB, clusterAnchor providers cs j = some (nmB, tB) ∧
      nmB ≠ nmA ∧ tB.body_keywords ≠ []

/-- The keyword Jaccard similarity the Pass 2 loop computes between an anchor
keyword set and cluster j's anchor topic (0 for a cluster with no present
slot, which the loop skips anyway). -/
def partnerSim (providers : List String) (cs : List Cluster) (kwsA : List String)
    (j : ℕ) : ℚ :=
  match clusterAnchor providers cs j with
  | some (_, tB) => _jaccard_similarity_sets kwsA tB.body_keywords
  | none => 0

/-! ### Concrete fixtures

Topic records used by concrete evaluations; match_topics consumes Topic
records directly, so the remaining fields are arbitrary. -/

/-- Fixture: five-word heading, no body keywords. -/
def tABGDE : Topic :=
  ⟨"alpha beta gamma delta epsilon", "Alpha Beta Gamma Delta Epsilon", 2, 50,
   "mentioned", 0, []⟩

/-- Fixture: three-word heading sharing three words with tABGDE, Jaccard 3/5. -/
def tABG : Topic :=
  ⟨"alpha beta gamma", "Alpha Beta Gamma", 2, 50, "mentioned", 0, []⟩

/-- Fixture: a disjoint heading, no body keywords. -/
def tQuantum : Topic :=
  ⟨"quantum computing", "Quantum Computing", 2, 50, "mentioned", 0, []⟩

/-- Fixture: another disjoint heading, no body keywords. -/
def tCompliance : Topic :=
  ⟨"regulatory compliance", "Regulatory Compliance", 2, 50, "mentioned", 0, []⟩

/-- Fixture: disjoint heading with three body keywords. -/
def tQuantumK : Topic :=
  ⟨"quantum computing", "Quantum Computing", 2, 50, "mentioned", 0,
   ["shared", "words", "core"]⟩

/-- Fixture: another disjoint heading with the same three body keywords. -/
def tComplianceK : Topic :=
  ⟨"regulatory compliance", "Regulatory Compliance", 2, 50, "mentioned", 0,
   ["shared", "words", "core"]⟩

/-- Fixture: the source names of the two-source Pass 2 scenario. -/
def c4prov : List String := ["x", "y"]

/-- Fixture: the cluster list Pass 1 leaves for two sources with one
keyword-sharing topic each and disjoint headings: two unmatched singletons. -/
def c4cs : List Cluster := (pass1 [[tQuantumK], [tComplianceK]]).2

/-! ### General lemmas -/

theorem FUZZY_SEED_eq : FUZZY_SEED = FUZZY_MATCH_THRESHOLD - EPS := by
  norm_num [FUZZY_SEED, FUZZY_MATCH_THRESHOLD, EPS, Rat.mkRat_eq_div]

theorem CONTENT_SEED_eq : CONTENT_SEED = CONTENT_MATCH_THRESHOLD - EPS := by
  norm_num [CONTENT_SEED, CONTENT_MATCH_THRESHOLD, EPS, Rat.mkRat_eq_div]

theorem jaccard_sets_eq_div (a b : List String) (h : ¬(a = [] ∧ b = []))
    (h2 : ¬(a = [] ∨ b = [])) :
    _jaccard_similarity_sets a b = ((a ∩ b).length : ℚ) / ((a ∪ b).length : ℚ) := by
  unfold _jaccard_similarity_sets
  rw [if_neg h, if_neg h2, Rat.mkRat_eq_div, Int.cast_natCast]

theorem pyStrLt_asymm : ∀ a b : List Char, pyStrLt a b = true → pyStrLt b a = false
  | [], [] => by simp [pyStrLt]
  | [], _ :: _ => by simp [pyStrLt]
  | _ :: _, [] => by simp [pyStrLt]
  | a :: as, b :: bs => by
    simp only [pyStrLt]
    intro h
    by_cases h1 : a < b
    · simp [h1, asymm h1]
    · by_cases h2 : b < a
      · simp [h1, h2] at h
      · simp only [h1, h2, if_false] at h ⊢
        exact pyStrLt_asymm as bs h

theorem pyStrLt_connex : ∀ a b : List Char,
    pyStrLt a b = false → pyStrLt b a = false → a = b
  | [], [] => by simp
  | [], _ :: _ => by simp [pyStrLt]
  | _ :: _, [] => by simp [pyStrLt]
  | a :: as, b :: bs => by
    simp only [pyStrLt]
    intro h h'
    by_cases h1 : a < b
    · simp [h1] at h
    · by_cases h2 : b < a
      · simp [h1, h2] at h'
      · simp only [h1, h2, if_false] at h h'
        rw [le_antisymm (not_lt.mp h2) (not_lt.mp h1), pyStrLt_connex as bs h h']

theorem pyStrLt_trans : ∀ a b c : List Char,
    pyStrLt a b = true → pyStrLt b c = true → pyStrLt a c = true
  | [], [], _ => by simp [pyStrLt]
  | [], _ :: _, [] => by simp [pyStrLt]
  | [], _ :: _, _ :: _ => by simp [pyStrLt]
  | _ :: _, [], _ => by simp [pyStrLt]
  | _ :: _, _ :: _, [] => by simp [pyStrLt]
  | a :: as, b :: bs, c :: cs => by
    simp only [pyStrLt]
    intro hab hbc
    by_cases h1 : a < b
    · by_cases h2 : b < c
      · simp [lt_trans h1 h2]
      · by_cases h3 : c < b
        · simp [h2, h3] at hbc
        · rw [le_antisymm (not_lt.mp h3) (not_lt.mp h2)] at h1
          simp [h1]
    · by_cases h2 : b < a
      · simp [h1, h2] at hab
      · have hab2 : a = b := le_antisymm (not_lt.mp h2) (not_lt.mp h1)
        subst hab2
        simp only [lt_self_iff_false, if_false] at hab
        by_cases h3 : a < c
        · simp [h3]
        · by_cases h4 : c < a
          · simp [h3, h4] at hbc
          · simp only [h3, h4, if_false] at hbc ⊢
            exact pyStrLt_trans as bs cs hab hbc

theorem pyStrLe_of_not (s x : String) (h : pyStrLe s x = false) : pyStrLe x s = true := by
  unfold pyStrLe at h ⊢
  simp only [Bool.not_eq_false'] at h
  simp [pyStrLt_asymm _ _ h]

theorem pyStrLe_trans (a b c : String) (h1 : pyStrLe a b = true) (h2 : pyStrLe b c = true) :
    pyStrLe a c = true := by
  unfold pyStrLe at h1 h2 ⊢
  simp only [Bool.not_eq_true'] at h1 h2
  simp only [Bool.not_eq_true']
  cases hx : pyStrLt c.data a.data with
  | false => rfl
  | true =>
    by_cases p : pyStrLt a.data b.data = true
    · exact absurd (pyStrLt_trans _ _ _ hx p) (by simp [h2])
    · have p' : pyStrLt a.data b.data = false := by
        revert p; cases pyStrLt a.data b.data <;> simp
      have hab : a.data = b.data := pyStrLt_connex _ _ p' h1
      rw [hab] at hx
      exact absurd hx (by simp [h2])

theorem pySortInsert_perm (s : String) : ∀ l : List String, (pySortInsert s l).Perm (s :: l)
  | [] => List.Perm.refl _
  | x :: xs => by
    unfold pySortInsert
    split
    · exact List.Perm.refl _
    · exact ((pySortInsert_perm s xs).cons x).trans (List.Perm.swap s x xs)

theorem pySorted_perm : ∀ l : List String, (pySorted l).Perm l
  | [] => List.Perm.refl _
  | x :: xs => (pySortInsert_perm x (pySorted xs)).trans ((pySorted_perm xs).cons x)

theorem pySortInsert_pairwise (s : String) : ∀ l : List String,
    l.Pairwise (fun a b => pyStrLe a b = true) →
    (pySortInsert s l).Pairwise (fun a b => pyStrLe a b = true)
  | [], _ => by simp [pySortInsert]
  | x :: xs, hl => by
    rcases List.pairwise_cons.mp hl with ⟨hx, hxs⟩
    unfold pySortInsert
    split_ifs with h
    · refine List.pairwise_cons.mpr ⟨?_, hl⟩
      intro b hb
      rcases List.mem_cons.mp hb with rfl | hb
      · exact h
      · exact pyStrLe_trans s x b h (hx b hb)
    · refine List.pairwise_cons.mpr ⟨?_, pySortInsert_pairwise s xs hxs⟩
      intro b hb
      have hb' := (pySortInsert_perm s xs).mem_iff.mp hb
      rcases List.mem_cons.mp hb' with hbs | hb'
      · subst hbs
        exact pyStrLe_of_not b x (by revert h; cases pyStrLe b x <;> simp)
      · exact hx b hb'

theorem pySorted_pairwise : ∀ l : List String,
    (pySorted l).Pairwise (fun a b => pyStrLe a b = true)
  | [] => List.Pairwise.nil
  | x :: xs => pySortInsert_pairwise x (pySorted xs) (pySorted_pairwise xs)

theorem pairwise_lt_of_le_nodup (l : List String)
    (hle : l.Pairwise (fun a b => pyStrLe a b = true)) (hnd : l.Nodup) :
    l.Pairwise (fun a b => pyStrLt a.data b.data = true) := by
  refine (hle.and hnd).imp ?_
  rintro a b ⟨h1, h2⟩
  unfold pyStrLe at h1
  simp only [Bool.not_eq_true'] at h1
  cases hx : pyStrLt a.data b.data with
  | true => rfl
  | false =>
    have hdata : a.data = b.data := pyStrLt_connex _ _ hx h1
    refine absurd ?_ h2
    cases a
    cases b
    exact congrArg String.mk hdata

theorem pairwise_fst_filterMap {β : Type} (R : String → String → Prop)
    (f : String → Option (String × β)) (hf : ∀ a x, f a = some x → x.1 = a) :
    ∀ l : List String, l.Pairwise R → ((l.filterMap f).map Prod.fst).Pairwise R
  | [], _ => by simp
  | a :: t, hl => by
    rcases List.pairwise_cons.mp hl with ⟨ha, ht⟩
    cases hfa : f a with
    | none =>
      rw [List.filterMap_cons_none hfa]
      exact pairwise_fst_filterMap R f hf t ht
    | some x =>
      rw [List.filterMap_cons_some hfa, List.map_cons]
      refine List.pairwise_cons.mpr ⟨?_, pairwise_fst_filterMap R f hf t ht⟩
      intro b hb
      rcases List.mem_map.mp hb with ⟨y, hy, rfl⟩
      rcases List.mem_filterMap.mp hy with ⟨c, hc, hyc⟩
      rw [hf a x hfa, hf c y hyc]
      exact ha c hc

theorem countP_three_eq_length {α : Type} (l : List α) (p q r : α → Bool)
    (h : ∀ x ∈ l,
      (p x = true ∧ q x = false ∧ r x = false) ∨
      (q x = true ∧ p x = false ∧ r x = false) ∨
      (r x = true ∧ p x = false ∧ q x = false)) :
    l.countP p + l.countP q + l.countP r = l.length := by
  induction l with
  | nil => simp
  | cons a t ih =>
    have ht := ih (fun x hx => h x (List.mem_cons_of_mem a hx))
    rcases h a (List.mem_cons_self a t) with ⟨h1, h2, h3⟩ | ⟨h1, h2, h3⟩ | ⟨h1, h2, h3⟩ <;>
      simp [List.countP_cons, h1, h2, h3] <;> omega

theorem match_topics_eq (pt : List (String × List Topic)) :
    match_topics pt =
      if pt.map Prod.fst = [] then []
      else (survivingClusters pt).map
        (matchedOfCluster (pt.map Prod.fst) (pt.map Prod.fst).length) := rfl

theorem build_matrix_eq (results : List ProviderResult) :
    build_matrix results =
      if results.filter (fun r => r.success) = [] then
        ⟨[], [], [], ⟨0, 0, 0, 0⟩, []⟩
      else
        let successful := results.filter (fun r => r.success)
        let provider_topics := successful.map (fun r => (r.provider, extract_topics r.report))
        let matched := match_topics provider_topics
        ⟨matched, successful.map ProviderResult.provider,
         _compute_citation_overlap successful,
         ⟨matched.length,
          matched.countP (fun t => decide (t.agreement_level = "consensus")),
          matched.countP (fun t => decide (t.agreement_level = "majority")),
          matched.countP (fun t => pyStartswith t.agreement_level "unique-")⟩,
         hintsOf provider_topics matched⟩ := rfl

theorem pyStartswith_append (s t : String) : pyStartswith (s ++ t) s = true := by
  unfold pyStartswith
  rw [String.data_append]
  exact List.isPrefixOf_iff_prefix.mpr (List.prefix_append _ _)

theorem unique_ne_consensus (s : String) : "unique-" ++ s ≠ "consensus" := by
  intro h
  have hp := pyStartswith_append "unique-" s
  rw [h] at hp
  exact absurd hp (by decide)

theorem unique_ne_majority (s : String) : "unique-" ++ s ≠ "majority" := by
  intro h
  have hp := pyStartswith_append "unique-" s
  rw [h] at hp
  exact absurd hp (by decide)

theorem matchedOfCluster_agreement (providers : List String) (active : ℕ) (c : Cluster) :
    (matchedOfCluster providers active c).agreement_level = "consensus" ∨
    (matchedOfCluster providers active c).agreement_level = "majority" ∨
    ∃ s, (matchedOfCluster providers active c).agreement_level = "unique-" ++ s := by
  unfold matchedOfCluster
  dsimp only
  split_ifs
  · exact Or.inr (Or.inr ⟨_, rfl⟩)
  · exact Or.inl rfl
  · exact Or.inr (Or.inl rfl)
  · exact Or.inr (Or.inr ⟨_, rfl⟩)

theorem match_topics_agreement (pt : List (String × List Topic)) (t : MatchedTopic)
    (ht : t ∈ match_topics pt) :
    t.agreement_level = "consensus" ∨ t.agreement_level = "majority" ∨
    ∃ s, t.agreement_level = "unique-" ++ s := by
  rw [match_topics_eq] at ht
  split at ht
  · exact absurd ht (List.not_mem_nil t)
  · rcases List.mem_map.mp ht with ⟨c, _, hc⟩
    rw [← hc]
    exact matchedOfCluster_agreement _ _ c

/-! ### Claim theorems (with their supporting lemmas) -/

/-- C6: for every input list of source results, the stats of the matrix
returned by build_matrix satisfy consensus + majority + unique =
total_topics, because every MatchedTopic agreement level is exactly one of
consensus, majority, or a string starting with the unique marker. -/
theorem C6_stats_partition (results : List ProviderResult) :
    (build_matrix results).stats.consensus + (build_matrix results).stats.majority +
      (build_matrix results).stats.unique = (build_matrix results).stats.total_topics := by
  rw [build_matrix_eq]
  split
  · rfl
  · dsimp only
    apply countP_three_eq_length
    intro t ht
    rcases match_topics_agreement _ t ht with h | h | ⟨s, h⟩
    · exact Or.inl ⟨by simp [h], by simp [h], by rw [h]; decide⟩
    · exact Or.inr (Or.inl ⟨by simp [h], by simp [h], by rw [h]; decide⟩)
    · refine Or.inr (Or.inr ⟨by rw [h]; exact pyStartswith_append _ _, ?_, ?_⟩)
      · simp only [decide_eq_false_iff_not, h]
        exact unique_ne_consensus s
      · simp only [decide_eq_false_iff_not, h]
        exact unique_ne_majority s

/-- C8: degenerate inputs degrade the output instead of erroring: a citation
entry that is not a non-empty string and not a dict with a non-empty url field
contributes nothing to URL extraction, wherever it sits in the list; an empty
or whitespace-only report yields an empty topic list; and an input in which
every source result has success = false (in particular an empty input) yields
the well-formed empty matrix with empty sources, topics, overlap, hints, and
all four stats counts zero. -/
theorem C8_degenerate_inputs :
    (∀ (c : Citation) (pre post : List Citation),
        ((∃ u, c = Citation.dict u ∧ u.getD "" = "") ∨ c = Citation.str "" ∨
          c = Citation.other) →
        _extract_urls (pre ++ c :: post) = _extract_urls (pre ++ post))
    ∧ (∀ report : String, pyStrip report.data = [] → extract_topics report = [])
    ∧ (∀ results : List ProviderResult, (∀ r ∈ results, r.success = false) →
        build_matrix results = ⟨[], [], [], ⟨0, 0, 0, 0⟩, []⟩) := by
  refine ⟨?_, ?_, ?_⟩
  · intro c pre post hbad
    have hstep : ∀ acc : List String, extractUrlStep acc c = acc := by
      intro acc
      rcases hbad with ⟨u, hc, hu⟩ | hc | hc <;> subst hc
      · simp [extractUrlStep, hu]
      · simp [extractUrlStep, pyStrip]
      · rfl
    unfold _extract_urls
    rw [List.foldl_append, List.foldl_append, List.foldl_cons, hstep]
  · intro report h
    unfold extract_topics
    rw [if_pos h]
  · intro results h
    have hf : results.filter (fun r => r.success) = [] :=
      List.filter_eq_nil_iff.mpr (fun r hr => by simp [h r hr])
    unfold build_matrix
    rw [hf]
    rfl

theorem C8_degenerate_inputs_witness :
    _extract_urls [Citation.dict none, Citation.str "http://a.com"] =
        _extract_urls [Citation.str "http://a.com"]
    ∧ extract_topics "  " = []
    ∧ build_matrix [⟨"x", false, "r", []⟩] = ⟨[], [], [], ⟨0, 0, 0, 0⟩, []⟩ :=
  ⟨C8_degenerate_inputs.1 (Citation.dict none) [] [Citation.str "http://a.com"]
      (Or.inl ⟨none, rfl, rfl⟩),
   C8_degenerate_inputs.2.1 "  " (by decide),
   C8_degenerate_inputs.2.2 [⟨"x", false, "r", []⟩] (by decide)⟩

/-- C2 evaluation: with three sources, the anchor topic of source x first
accepts a fuzzy candidate from source y (heading Jaccard exactly 3/5) and then
an exact candidate from source z (identical normalized heading, score 1.0);
the resulting cluster keeps match method heading-fuzzy, although the claim
(and the upgrade comment in the source) require exact whenever any accepted
pair scored 1.0. -/
theorem C2_later_exact_does_not_upgrade :
    (match_topics [("x", [tABGDE]), ("y", [tABG]), ("z", [tABGDE])]).map
      MatchedTopic.match_method = ["heading-fuzzy"] := by decide

/-- C7: for every input list of source results, the citation-overlap map has
its URL keys in strictly ascending Python string order; every entry carries a
sorted, duplicate-free list of at least two source names; and each listed
source really cites the URL. -/
theorem C7_citation_overlap (results : List ProviderResult) :
    ((_compute_citation_overlap results).map Prod.fst).Pairwise
      (fun a b => pyStrLt a.data b.data = true)
    ∧ ∀ url provs, (url, provs) ∈ _compute_citation_overlap results →
        2 ≤ provs.length ∧ provs.Nodup ∧
        provs.Pairwise (fun a b => pyStrLt a.data b.data = true) ∧
        ∀ p ∈ provs, ∃ r ∈ results, r.provider = p ∧
          url ∈ _extract_urls r.citations := by
  constructor
  · unfold _compute_citation_overlap
    apply pairwise_fst_filterMap
    · intro a x hx
      dsimp only at hx
      by_cases hc : 2 ≤ (urlProviders results a).length
      · rw [if_pos hc] at hx
        rw [← Option.some.inj hx]
      · rw [if_neg hc] at hx
        exact absurd hx (by simp)
    · apply pairwise_lt_of_le_nodup
      · exact pySorted_pairwise _
      · exact (pySorted_perm _).nodup_iff.mpr (List.nodup_dedup _)
  · intro url provs hmem
    unfold _compute_citation_overlap at hmem
    rcases List.mem_filterMap.mp hmem with ⟨u, _, hfu⟩
    dsimp only at hfu
    by_cases hcard : 2 ≤ (urlProviders results u).length
    · rw [if_pos hcard] at hfu
      have hpair := Option.some.inj hfu
      have hu : u = url := congrArg Prod.fst hpair
      have hprovs : pySorted (urlProviders results u) = provs :=
        congrArg Prod.snd hpair
      subst hu
      rw [← hprovs]
      have hperm := pySorted_perm (urlProviders results u)
      refine ⟨?_, ?_, ?_, ?_⟩
      · rw [hperm.length_eq]
        exact hcard
      · exact hperm.nodup_iff.mpr (List.nodup_dedup _)
      · exact pairwise_lt_of_le_nodup _ (pySorted_pairwise _)
          (hperm.nodup_iff.mpr (List.nodup_dedup _))
      · intro p hp
        have hp' : p ∈ urlProviders results u := hperm.mem_iff.mp hp
        unfold urlProviders at hp'
        rcases List.mem_map.mp (List.mem_dedup.mp hp') with ⟨r, hr, hrp⟩
        rcases List.mem_filter.mp hr with ⟨hrmem, hrurl⟩
        exact ⟨r, hrmem, hrp, of_decide_eq_true hrurl⟩
    · rw [if_neg hcard] at hfu
      exact absurd hfu (by simp)

theorem drop_cons_facts {α : Type} [Inhabited α] (cands : List α) (c : α) (rest : List α)
    (idx : ℕ) (hdrop : c :: rest = cands.drop idx) :
    idx < cands.length ∧ cands.getD idx default = c ∧ rest = cands.drop (idx + 1) := by
  have hlen : idx < cands.length := by
    by_contra hc
    rw [List.drop_eq_nil_iff.mpr (not_lt.mp hc)] at hdrop
    exact List.cons_ne_nil c rest hdrop
  have h1 : cands[idx]? = some c := by
    rw [← List.head?_drop, ← hdrop]
    rfl
  refine ⟨hlen, ?_, ?_⟩
  · rw [List.getD_eq_getElem?_getD, h1]
    rfl
  · have h2 := List.tail_drop cands idx
    rw [← hdrop] at h2
    simpa using h2

theorem bm_loop_none (needle : Topic) (cands : List Topic) (used : Finset ℕ) :
    ∀ (l : List Topic) (idx : ℕ) (bi : Option ℕ) (bs : ℚ),
      l = cands.drop idx →
      bs < FUZZY_MATCH_THRESHOLD →
      (∀ j, idx ≤ j → j < cands.length → j ∉ used →
        needle.heading ≠ (cands.getD j default).heading ∧
        _jaccard_similarity needle.heading (cands.getD j default).heading <
          FUZZY_MATCH_THRESHOLD) →
      bmLoop needle used l idx bi bs = none := by
  intro l
  induction l with
  | nil =>
    intro idx bi bs _ hbs _
    cases bi with
    | none => rfl
    | some i => simp [bmLoop, bmFinish, not_le.mpr hbs]
  | cons c rest ih =>
    intro idx bi bs hdrop hbs hall
    obtain ⟨hlen, hc, hrest⟩ := drop_cons_facts cands c rest idx hdrop
    have hstep := hall idx le_rfl hlen
    simp only [bmLoop]
    by_cases hu : idx ∈ used
    · rw [if_pos hu]
      exact ih (idx + 1) bi bs hrest hbs
        (fun j hj => hall j (le_trans (Nat.le_succ idx) hj))
    · rw [if_neg hu, if_neg (hc ▸ (hstep hu).1)]
      by_cases hlt : bs < _jaccard_similarity needle.heading c.heading
      · rw [if_pos hlt]
        exact ih (idx + 1) (some idx) _ hrest (hc ▸ (hstep hu).2)
          (fun j hj => hall j (le_trans (Nat.le_succ idx) hj))
      · rw [if_neg hlt]
        exact ih (idx + 1) bi bs hrest hbs
          (fun j hj => hall j (le_trans (Nat.le_succ idx) hj))

theorem bm_loop_keep (needle : Topic) (cands : List Topic) (used : Finset ℕ)
    (i0 : ℕ) (M : ℚ) (hM : FUZZY_MATCH_THRESHOLD ≤ M) :
    ∀ (l : List Topic) (idx : ℕ),
      l = cands.drop idx →
      (∀ j, idx ≤ j → j < cands.length → j ∉ used →
        needle.heading ≠ (cands.getD j default).heading ∧
        _jaccard_similarity needle.heading (cands.getD j default).heading ≤ M) →
      bmLoop needle used l idx (some i0) M = some (i0, M) := by
  intro l
  induction l with
  | nil =>
    intro idx _ _
    simp [bmLoop, bmFinish, hM]
  | cons c rest ih =>
    intro idx hdrop hall
    obtain ⟨hlen, hc, hrest⟩ := drop_cons_facts cands c rest idx hdrop
    have hstep := hall idx le_rfl hlen
    simp only [bmLoop]
    by_cases hu : idx ∈ used
    · rw [if_pos hu]
      exact ih (idx + 1) hrest (fun j hj => hall j (le_trans (Nat.le_succ idx) hj))
    · rw [if_neg hu, if_neg (hc ▸ (hstep hu).1),
        if_neg (not_lt.mpr (hc ▸ (hstep hu).2))]
      exact ih (idx + 1) hrest (fun j hj => hall j (le_trans (Nat.le_succ idx) hj))

theorem bm_loop_found (needle : Topic) (cands : List Topic) (used : Finset ℕ)
    (i0 : ℕ) (hi0len : i0 < cands.length) (hi0used : i0 ∉ used)
    (hM : FUZZY_MATCH_THRESHOLD ≤
      _jaccard_similarity needle.heading (cands.getD i0 default).heading)
    (hmax : ∀ j, j < cands.length → j ∉ used →
      needle.heading ≠ (cands.getD j default).heading ∧
      _jaccard_similarity needle.heading (cands.getD j default).heading ≤
        _jaccard_similarity needle.heading (cands.getD i0 default).heading)
    (hfirst : ∀ j, j < i0 → j ∉ used →
      _jaccard_similarity needle.heading (cands.getD j default).heading <
        _jaccard_similarity needle.heading (cands.getD i0 default).heading) :
    ∀ (l : List Topic) (idx : ℕ) (bi : Option ℕ) (bs : ℚ),
      l = cands.drop idx →
      idx ≤ i0 →
      bs < _jaccard_similarity needle.heading (cands.getD i0 default).heading →
      bmLoop needle used l idx bi bs =
        some (i0, _jaccard_similarity needle.heading (cands.getD i0 default).heading) := by
  intro l
  induction l with
  | nil =>
    intro idx _ _ hdrop hidx _
    exfalso
    have : cands.length ≤ idx := List.drop_eq_nil_iff.mp hdrop.symm
    omega
  | cons c rest ih =>
    intro idx bi bs hdrop hidx hbs
    obtain ⟨hlen, hc, hrest⟩ := drop_cons_facts cands c rest idx hdrop
    simp only [bmLoop]
    by_cases hu : idx ∈ used
    · rw [if_pos hu]
      have hne : idx ≠ i0 := fun h => hi0used (h ▸ hu)
      exact ih (idx + 1) bi bs hrest (by omega) hbs
    · have hstep := hmax idx hlen hu
      rw [if_neg hu, if_neg (hc ▸ hstep.1)]
      by_cases heq : idx = i0
      · subst heq
        rw [hc] at hbs hM hmax ⊢
        rw [if_pos hbs]
        exact bm_loop_keep needle cands used idx _ hM rest (idx + 1) hrest
          (fun j _ hjlen hju => hmax j hjlen hju)
      · have hlt : idx < i0 := lt_of_le_of_ne hidx heq
        have hscore := hfirst idx hlt hu
        by_cases hup : bs < _jaccard_similarity needle.heading c.heading
        · rw [if_pos hup]
          exact ih (idx + 1) (some idx) _ hrest (by omega) (hc ▸ hscore)
        · rw [if_neg hup]
          exact ih (idx + 1) bi bs hrest (by omega) hbs

/-- C3: in Pass 1, for an anchor topic with no exact heading match among
another source's unassigned topics, _best_match accepts the highest-Jaccard
unassigned candidate (earliest index on ties) exactly when its score reaches
the 0.60 threshold: a maximal candidate scoring at least 3/5 is returned with
its score, and if every unassigned candidate scores below 3/5 nothing is
returned. -/
theorem C3_best_match_threshold (needle : Topic) (cands : List Topic) (used : Finset ℕ)
    (hne : ∀ j, j < cands.length → j ∉ used →
      needle.heading ≠ (cands.getD j default).heading) :
    ((∀ j, j < cands.length → j ∉ used →
        _jaccard_similarity needle.heading (cands.getD j default).heading <
          FUZZY_MATCH_THRESHOLD) →
      _best_match needle cands used = none)
    ∧ (∀ i0, i0 < cands.length → i0 ∉ used →
        FUZZY_MATCH_THRESHOLD ≤
          _jaccard_similarity needle.heading (cands.getD i0 default).heading →
        (∀ j, j < cands.length → j ∉ used →
          _jaccard_similarity needle.heading (cands.getD j default).heading ≤
            _jaccard_similarity needle.heading (cands.getD i0 default).heading) →
        (∀ j, j < i0 → j ∉ used →
          _jaccard_similarity needle.heading (cands.getD j default).heading <
            _jaccard_similarity needle.heading (cands.getD i0 default).heading) →
        _best_match needle cands used =
          some (i0, _jaccard_similarity needle.heading (cands.getD i0 default).heading)) := by
  have hseed : FUZZY_SEED < FUZZY_MATCH_THRESHOLD := by decide
  constructor
  · intro hall
    exact bm_loop_none needle cands used cands 0 none FUZZY_SEED rfl hseed
      (fun j _ hjlen hju => ⟨hne j hjlen hju, hall j hjlen hju⟩)
  · intro i0 hi0len hi0used hM hmax hfirst
    exact bm_loop_found needle cands used i0 hi0len hi0used hM
      (fun j hjlen hju => ⟨hne j hjlen hju, hmax j hjlen hju⟩) hfirst
      cands 0 none FUZZY_SEED rfl (Nat.zero_le i0) (lt_of_lt_of_le hseed hM)

theorem C3_best_match_threshold_witness :
    _best_match tABGDE [tABG] ∅ =
      some (0, _jaccard_similarity tABGDE.heading (([tABG] : List Topic).getD 0 default).heading)
    ∧ _best_match tABGDE [tQuantum] ∅ = none :=
  ⟨(C3_best_match_threshold tABGDE [tABG] ∅ (by decide)).2 0 (by decide) (by decide)
      (by decide) (by decide) (by decide),
   (C3_best_match_threshold tABGDE [tQuantum] ∅ (by decide)).1 (by decide)⟩

/-! Lemmas tracking one fixed source slot p whose topic list is empty: no
cluster ever holds a topic in that slot. -/

theorem getD_set_ne {α : Type} (l : List α) (m n : ℕ) (a d : α) (h : m ≠ n) :
    (l.set m a).getD n d = l.getD n d := by
  rw [List.getD_eq_getElem?_getD, List.getD_eq_getElem?_getD, List.getElem?_set_ne h]

theorem best_match_nil (anchor : Topic) (u : Finset ℕ) :
    _best_match anchor [] u = none := rfl

theorem pass1Step_slotP (lists : List (List Topic)) (anchor : Topic) (pa p : ℕ)
    (hp : lists.getD p [] = []) (st : InnerState) (hst : st.slots.getD p none = none)
    (pb : ℕ) : (pass1Step lists anchor pa st pb).slots.getD p none = none := by
  unfold pass1Step
  by_cases h1 : pb = pa
  · rw [if_pos h1]
    exact hst
  · rw [if_neg h1]
    cases hbm : _best_match anchor (lists.getD pb []) (st.used.getD pb ∅) with
    | none => exact hst
    | some v =>
      by_cases hpp : pb = p
      · subst hpp
        rw [hp, best_match_nil] at hbm
        exact absurd hbm (by simp)
      · obtain ⟨idx, score⟩ := v
        dsimp only
        rw [getD_set_ne _ _ _ _ _ hpp]
        exact hst

theorem foldRange_slotP (lists : List (List Topic)) (anchor : Topic) (pa p : ℕ)
    (hp : lists.getD p [] = []) :
    ∀ (L : List ℕ) (st : InnerState), st.slots.getD p none = none →
      ((L.foldl (pass1Step lists anchor pa) st).slots.getD p none) = none
  | [], _, hst => hst
  | pb :: L, st, hst =>
    foldRange_slotP lists anchor pa p hp L _
      (pass1Step_slotP lists anchor pa p hp st hst pb)

theorem slots0_slotP (n pa p : ℕ) (t : Topic) (hpa : p ≠ pa) :
    ((List.range n).map (fun k => if k = pa then some t else none)).getD p none = none := by
  rw [List.getD_eq_getElem?_getD, List.getElem?_map]
  cases hr : (List.range n)[p]? with
  | none => rfl
  | some v =>
    rcases List.getElem?_eq_some_iff.mp hr with ⟨hlt, he⟩
    rw [List.getElem_range] at he
    rw [← he]
    simp [hpa]

theorem pass1Topics_slotP (lists : List (List Topic)) (n p : ℕ)
    (hp : lists.getD p [] = []) :
    ∀ (pa : ℕ) (tl : List Topic) (ai : ℕ) (used : List (Finset ℕ))
      (clusters : List Cluster),
      (pa = p → tl = []) →
      (∀ c ∈ clusters, c.topics.getD p none = none) →
      ∀ c ∈ (pass1Topics lists n pa tl ai (used, clusters)).2,
        c.topics.getD p none = none
  | _, [], _, _, _, _, hcl => hcl
  | pa, t :: tl, ai, used, clusters, hpa, hcl => by
    have hpane : pa ≠ p := fun h => List.cons_ne_nil t tl (hpa h)
    unfold pass1Topics
    split_ifs with h1
    · exact pass1Topics_slotP lists n p hp pa tl (ai + 1) used clusters
        (fun h => absurd h hpane) hcl
    · refine pass1Topics_slotP lists n p hp pa tl (ai + 1) _ _
        (fun h => absurd h hpane) ?_
      intro c hc
      rcases List.mem_append.mp hc with hc | hc
      · exact hcl c hc
      · rw [List.mem_singleton.mp hc]
        exact foldRange_slotP lists t pa p hp (List.range n) _
          (slots0_slotP n pa p t (fun h => hpane h.symm))

theorem pass1_slotP (lists : List (List Topic)) (p : ℕ) (hp : lists.getD p [] = []) :
    ∀ c ∈ (pass1 lists).2, c.topics.getD p none = none := by
  unfold pass1
  have main : ∀ (L : List ℕ) (st : List (Finset ℕ) × List Cluster),
      (∀ c ∈ st.2, c.topics.getD p none = none) →
      ∀ c ∈ (L.foldl
          (fun st pa => pass1Topics lists lists.length pa (lists.getD pa []) 0 st)
          st).2, c.topics.getD p none = none := by
    intro L
    induction L with
    | nil => intro st hst; exact hst
    | cons pa L ih =>
      intro st hst
      rw [List.foldl_cons]
      refine ih _ ?_
      intro c hc
      exact pass1Topics_slotP lists lists.length p hp pa (lists.getD pa []) 0 st.1 st.2
        (fun h => h ▸ hp) hst c hc
  exact main (List.range lists.length) (List.replicate lists.length ∅, [])
    (fun c hc => absurd hc (List.not_mem_nil c))

theorem mergeSlots_getD_none : ∀ (a b : List (Option Topic)) (p : ℕ),
    a.getD p none = none → b.getD p none = none →
    (mergeSlots a b).getD p none = none
  | [], b, p, _, _ => by rw [mergeSlots]; rfl
  | _ :: _, [], _, ha, _ => by rw [mergeSlots]; exact ha
  | sa :: a, sb :: b, 0, ha, hb => by
    simp only [mergeSlots]
    simp only [List.getD_cons_zero] at ha hb ⊢
    rw [ha, hb]
  | sa :: a, sb :: b, q + 1, ha, hb => by
    simp only [mergeSlots]
    simp only [List.getD_cons_succ] at ha hb ⊢
    exact mergeSlots_getD_none a b q ha hb

theorem cluster_getD_slotP (cs : List Cluster) (p : ℕ)
    (h : ∀ c ∈ cs, c.topics.getD p none = none) (j : ℕ) :
    ((cs.getD j default).topics.getD p none) = none := by
  by_cases hj : j < cs.length
  · have hgd : cs.getD j default = cs[j] := by
      rw [List.getD_eq_getElem?_getD, List.getElem?_eq_getElem hj]
      rfl
    rw [hgd]
    exact h _ (List.getElem_mem hj)
  · have hgd : cs.getD j default = default := by
      rw [List.getD_eq_getElem?_getD, List.getElem?_eq_none (not_lt.mp hj)]
      rfl
    rw [hgd]
    rfl

theorem pass2Step_slotP (providers : List String) (p : ℕ) (cs : List Cluster) (i : ℕ)
    (h : ∀ c ∈ cs, c.topics.getD p none = none) :
    ∀ c ∈ pass2Step providers cs i, c.topics.getD p none = none := by
  intro c hc
  unfold pass2Step at hc
  by_cases h1 : (cs.getD i default).match_method ≠ "unmatched"
  · rw [if_pos h1] at hc
    exact h c hc
  · rw [if_neg h1] at hc
    by_cases h2 : (cs.getD i default).merged_into ≠ none
    · rw [if_pos h2] at hc
      exact h c hc
    · rw [if_neg h2] at hc
      cases hfp : firstPresentName providers (cs.getD i default).topics with
      | none =>
        rw [hfp] at hc
        exact h c hc
      | some anchorPair =>
        rw [hfp] at hc
        obtain ⟨anchorA, topicA⟩ := anchorPair
        dsimp only at hc
        by_cases h3 : topicA.body_keywords = []
        · rw [if_pos h3] at hc
          exact h c hc
        · rw [if_neg h3] at hc
          cases hbj : findBestJ providers cs i anchorA topicA.body_keywords with
          | none =>
            rw [hbj] at hc
            exact h c hc
          | some bj =>
            rw [hbj] at hc
            dsimp only at hc
            rcases List.mem_or_eq_of_mem_set hc with hc1 | hceq
            · rcases List.mem_or_eq_of_mem_set hc1 with hc2 | hceq
              · exact h c hc2
              · rw [hceq]
                exact mergeSlots_getD_none _ _ p (cluster_getD_slotP cs p h i)
                  (cluster_getD_slotP cs p h bj)
            · rw [hceq]
              exact cluster_getD_slotP cs p h bj

theorem pass2_slotP (providers : List String) (p : ℕ) (cs : List Cluster)
    (h : ∀ c ∈ cs, c.topics.getD p none = none) :
    ∀ c ∈ pass2 providers cs, c.topics.getD p none = none := by
  unfold pass2
  have main : ∀ (L : List ℕ) (cs0 : List Cluster),
      (∀ c ∈ cs0, c.topics.getD p none = none) →
      ∀ c ∈ L.foldl (pass2Step providers) cs0, c.topics.getD p none = none := by
    intro L
    induction L with
    | nil => exact fun cs0 h0 => h0
    | cons i L ih =>
      intro cs0 h0
      rw [List.foldl_cons]
      exact ih _ (pass2Step_slotP providers p cs0 i h0)
  exact main _ cs h

/-- C10: if at least two sources are active and some active source has an
empty or whitespace-only report, then no topic of the resulting matrix has
agreement level consensus: the empty source contributes no topics, stays
absent in every cluster, and so no cluster can cover all active sources. -/
theorem C10_empty_report_blocks_consensus (results : List ProviderResult)
    (r : ProviderResult) (hr : r ∈ results) (hsucc : r.success = true)
    (hemp : pyStrip r.report.data = [])
    (hn : 2 ≤ (results.filter (fun x => x.success)).length) :
    ∀ t ∈ (build_matrix results).topics, t.agreement_level ≠ "consensus" := by
  rw [build_matrix_eq]
  have hne : ¬ results.filter (fun r => r.success) = [] := by
    intro h0
    rw [h0] at hn
    simp at hn
  rw [if_neg hne]
  intro t ht
  dsimp only at ht
  have hrs : r ∈ results.filter (fun r => r.success) :=
    List.mem_filter.mpr ⟨hr, hsucc⟩
  rcases List.mem_iff_getElem.mp hrs with ⟨p, hplen, hpr⟩
  -- the p-th topic list is empty
  have hplists :
      (((results.filter (fun r => r.success)).map
        (fun r => (r.provider, extract_topics r.report))).map Prod.snd).getD p [] = [] := by
    rw [List.map_map, List.getD_eq_getElem?_getD, List.getElem?_map,
      List.getElem?_eq_getElem hplen]
    simp only [Option.map_some', Option.getD_some]
    rw [hpr]
    show extract_topics r.report = []
    unfold extract_topics
    rw [if_pos hemp]
  have hprov_len :
      (((results.filter (fun r => r.success)).map
        (fun r => (r.provider, extract_topics r.report))).map Prod.fst).length =
        (results.filter (fun r => r.success)).length := by
    simp
  have hprov_ne :
      ¬ ((results.filter (fun r => r.success)).map
        (fun r => (r.provider, extract_topics r.report))).map Prod.fst = [] := by
    intro h0
    rw [← List.length_eq_zero] at h0  -- hmm name
    omega
  rw [match_topics_eq, if_neg hprov_ne] at ht
  rcases List.mem_map.mp ht with ⟨c, hcmem, hceq⟩
  have hcpass2 : c ∈ pass2
      (((results.filter (fun r => r.success)).map
        (fun r => (r.provider, extract_topics r.report))).map Prod.fst)
      (pass1 (((results.filter (fun r => r.success)).map
        (fun r => (r.provider, extract_topics r.report))).map Prod.snd)).2 :=
    List.mem_filter.mp (by unfold survivingClusters at hcmem; exact hcmem) |>.1
  have hslot : c.topics.getD p none = none :=
    pass2_slotP _ p _ (pass1_slotP _ p hplists) c hcpass2
  rw [← hceq]
  unfold matchedOfCluster
  dsimp only
  set providers := ((results.filter (fun r => r.success)).map
    (fun r => (r.provider, extract_topics r.report))).map Prod.fst with hprovdef
  set cov := (List.range providers.length).map
    (fun k => (providers.getD k "", (c.topics.getD k none).elim "absent" Topic.coverage))
    with hcovdef
  have hn2 : 2 ≤ providers.length := by rw [hprov_len]; exact hn
  have hpn : p < providers.length := by rw [hprov_len]; exact hplen
  have habs : "absent" ∈ cov.map Prod.snd := by
    rw [hcovdef]
    rw [List.map_map]
    refine List.mem_map.mpr ⟨p, List.mem_range.mpr hpn, ?_⟩
    have hslot2 := hslot
    rw [List.getD_eq_getElem?_getD] at hslot2
    simp [hslot2]
  have hcovlen : (cov.map Prod.snd).length = providers.length := by
    simp [hcovdef]
  have hcount : (cov.map Prod.snd).countP (fun v => decide (v ≠ "absent")) <
      providers.length := by
    rcases lt_or_eq_of_le (List.countP_le_length (p := fun v => decide (v ≠ "absent"))
      (l := cov.map Prod.snd)) with hlt | heq
    · rw [hcovlen] at hlt
      exact hlt
    · exfalso
      have := List.countP_eq_length.mp heq "absent" habs
      simp at this
  split_ifs with g1 g2 g3
  · omega
  · exact absurd g2 (ne_of_lt hcount)
  · decide
  · exact unique_ne_consensus _

theorem C10_empty_report_blocks_consensus_witness :
    "consensus" ∉ (build_matrix [⟨"x", true, "# Alpha\nbody", []⟩,
      ⟨"y", true, " ", []⟩]).topics.map MatchedTopic.agreement_level := by
  intro hmem
  rcases List.mem_map.mp hmem with ⟨t, ht, heq⟩
  exact C10_empty_report_blocks_consensus
    [⟨"x", true, "# Alpha\nbody", []⟩, ⟨"y", true, " ", []⟩]
    ⟨"y", true, " ", []⟩ (by decide) rfl (by decide) (by decide) t ht heq

/-! Lemmas for the canonical-name characterization: the first longest heading
of the present slots, in slot order. -/

theorem foldl_maxlen (t : List String) : ∀ acc : String,
    (t.foldl (fun best s => if best.length < s.length then s else best) acc = acc ∧
      ∀ j, j < t.length → (t.getD j "").length ≤ acc.length) ∨
    (∃ j0, j0 < t.length ∧
      t.foldl (fun best s => if best.length < s.length then s else best) acc =
        t.getD j0 "" ∧
      acc.length < (t.getD j0 "").length ∧
      (∀ j, j < t.length → (t.getD j "").length ≤ (t.getD j0 "").length) ∧
      (∀ j, j < j0 → (t.getD j "").length < (t.getD j0 "").length)) := by
  induction t with
  | nil =>
    intro acc
    exact Or.inl ⟨rfl, fun j hj => absurd hj (by simp)⟩
  | cons s t ih =>
    intro acc
    rw [List.foldl_cons]
    by_cases hs : acc.length < s.length
    · rw [if_pos hs]
      rcases ih s with ⟨hr, hb⟩ | ⟨j0, hj0, hr, hacc, hb, hstrict⟩
      · refine Or.inr ⟨0, by simp, by simpa using hr, by simpa using hs, ?_, ?_⟩
        · intro j hj
          cases j with
          | zero => simp
          | succ q =>
            rw [List.getD_cons_succ, List.getD_cons_zero]
            exact hb q (by simpa using hj)
        · intro j hj
          exact absurd hj (Nat.not_lt_zero j)
      · refine Or.inr ⟨j0 + 1, by simpa using hj0, by simpa using hr, ?_, ?_, ?_⟩
        · rw [List.getD_cons_succ]
          exact lt_trans hs hacc
        · intro j hj
          cases j with
          | zero =>
            rw [List.getD_cons_zero, List.getD_cons_succ]
            exact le_of_lt hacc
          | succ q =>
            rw [List.getD_cons_succ, List.getD_cons_succ]
            exact hb q (by simpa using hj)
        · intro j hj
          cases j with
          | zero =>
            rw [List.getD_cons_zero, List.getD_cons_succ]
            exact hacc
          | succ q =>
            rw [List.getD_cons_succ, List.getD_cons_succ]
            exact hstrict q (by omega)
    · rw [if_neg hs]
      rcases ih acc with ⟨hr, hb⟩ | ⟨j0, hj0, hr, hacc, hb, hstrict⟩
      · refine Or.inl ⟨hr, ?_⟩
        intro j hj
        cases j with
        | zero =>
          rw [List.getD_cons_zero]
          exact not_lt.mp hs
        | succ q =>
          rw [List.getD_cons_succ]
          exact hb q (by simpa using hj)
      · refine Or.inr ⟨j0 + 1, by simpa using hj0, by simpa using hr, ?_, ?_, ?_⟩
        · rw [List.getD_cons_succ]
          exact hacc
        · intro j hj
          cases j with
          | zero =>
            rw [List.getD_cons_zero, List.getD_cons_succ]
            exact le_of_lt (lt_of_le_of_lt (not_lt.mp hs) hacc)
          | succ q =>
            rw [List.getD_cons_succ, List.getD_cons_succ]
            exact hb q (by simpa using hj)
        · intro j hj
          cases j with
          | zero =>
            rw [List.getD_cons_zero, List.getD_cons_succ]
            exact lt_of_le_of_lt (not_lt.mp hs) hacc
          | succ q =>
            rw [List.getD_cons_succ, List.getD_cons_succ]
            exact hstrict q (by omega)

theorem pyMaxByLen_spec (l : List String) (hne : l ≠ []) :
    ∃ j0, j0 < l.length ∧ pyMaxByLen l = l.getD j0 "" ∧
      (∀ j, j < l.length → (l.getD j "").length ≤ (l.getD j0 "").length) ∧
      (∀ j, j < j0 → (l.getD j "").length < (l.getD j0 "").length) := by
  cases l with
  | nil => exact absurd rfl hne
  | cons h t =>
    show ∃ j0, _
    rcases foldl_maxlen t h with ⟨hr, hb⟩ | ⟨j0, hj0, hr, hacc, hb, hstrict⟩
    · refine ⟨0, by simp, by simpa [pyMaxByLen] using hr, ?_, ?_⟩
      · intro j hj
        cases j with
        | zero => simp
        | succ q =>
          rw [List.getD_cons_succ, List.getD_cons_zero]
          exact hb q (by simpa using hj)
      · intro j hj
        exact absurd hj (Nat.not_lt_zero j)
    · refine ⟨j0 + 1, by simpa using hj0, by simpa [pyMaxByLen] using hr, ?_, ?_⟩
      · intro j hj
        cases j with
        | zero =>
          rw [List.getD_cons_zero, List.getD_cons_succ]
          exact le_of_lt hacc
        | succ q =>
          rw [List.getD_cons_succ, List.getD_cons_succ]
          exact hb q (by simpa using hj)
      · intro j hj
        cases j with
        | zero =>
          rw [List.getD_cons_zero, List.getD_cons_succ]
          exact hacc
        | succ q =>
          rw [List.getD_cons_succ, List.getD_cons_succ]
          exact hstrict q (by omega)

theorem fm_correspond : ∀ (slots : List (Option Topic)) (j0 : ℕ),
    j0 < (slots.filterMap id).length →
    ∃ k, slots.getD k none = some ((slots.filterMap id).getD j0 default) ∧
      ∀ j t, j < k → slots.getD j none = some t →
        ∃ j', j' < j0 ∧ (slots.filterMap id).getD j' default = t
  | [], j0, h => by simp at h
  | none :: rest, j0, h => by
    have hfm : ((none :: rest : List (Option Topic)).filterMap id) = rest.filterMap id := by
      simp
    rw [hfm] at h ⊢
    rcases fm_correspond rest j0 h with ⟨k, hk, hstrict⟩
    refine ⟨k + 1, by simpa [List.getD_cons_succ] using hk, ?_⟩
    intro j t hj hjt
    cases j with
    | zero => simp [List.getD_cons_zero] at hjt
    | succ q =>
      rw [List.getD_cons_succ] at hjt
      exact hstrict q t (by omega) hjt
  | some v :: rest, j0, h => by
    have hfm : ((some v :: rest : List (Option Topic)).filterMap id) =
        v :: rest.filterMap id := by simp
    rw [hfm] at h ⊢
    cases j0 with
    | zero =>
      exact ⟨0, by simp, fun j t hj _ => absurd hj (Nat.not_lt_zero j)⟩
    | succ q =>
      rcases fm_correspond rest q (by simpa using h) with ⟨k, hk, hstrict⟩
      refine ⟨k + 1, ?_, ?_⟩
      · simpa [List.getD_cons_succ] using hk
      · intro j t hj hjt
        cases j with
        | zero =>
          rw [List.getD_cons_zero] at hjt
          refine ⟨0, Nat.succ_pos q, ?_⟩
          rw [List.getD_cons_zero]
          exact Option.some.inj hjt
        | succ m =>
          rw [List.getD_cons_succ] at hjt
          rcases hstrict m t (by omega) hjt with ⟨j', hj', hv⟩
          exact ⟨j' + 1, by omega, by simpa [List.getD_cons_succ] using hv⟩

theorem getD_map_heading (l : List Topic) (j : ℕ) (hj : j < l.length) :
    (l.map Topic.heading).getD j "" = (l.getD j default).heading := by
  rw [List.getD_eq_getElem?_getD, List.getD_eq_getElem?_getD, List.getElem?_map,
    List.getElem?_eq_getElem hj]
  rfl

theorem mem_getD_of_mem {α : Type} [Inhabited α] (l : List α) (x : α) (h : x ∈ l) :
    ∃ j, j < l.length ∧ l.getD j default = x := by
  rcases List.mem_iff_getElem.mp h with ⟨j, hj, he⟩
  refine ⟨j, hj, ?_⟩
  rw [List.getD_eq_getElem?_getD, List.getElem?_eq_getElem hj]
  exact he

theorem mem_filterMap_of_slot (slots : List (Option Topic)) (j : ℕ) (t : Topic)
    (h : slots.getD j none = some t) : t ∈ slots.filterMap id := by
  rw [List.getD_eq_getElem?_getD] at h
  cases hj : slots[j]? with
  | none =>
    rw [hj] at h
    simp at h
  | some s =>
    rw [hj] at h
    simp only [Option.getD_some] at h
    subst h
    exact List.mem_filterMap.mpr ⟨some t, List.getElem?_mem hj, rfl⟩

/-! The has-a-present-slot invariant through both passes. -/

theorem set_some_HP (slots : List (Option Topic)) (pb : ℕ) (x : Topic)
    (h : ∃ k t, slots.getD k none = some t) :
    ∃ k t, (slots.set pb (some x)).getD k none = some t := by
  rcases h with ⟨k, t, hk⟩
  by_cases hkb : k = pb
  · subst hkb
    by_cases hlen : k < slots.length
    · refine ⟨k, x, ?_⟩
      rw [List.getD_eq_getElem?_getD, List.getElem?_set_self hlen]
      rfl
    · rw [List.set_eq_of_length_le (not_lt.mp hlen)]
      exact ⟨k, t, hk⟩
  · exact ⟨k, t, by rw [getD_set_ne _ _ _ _ _ (fun h2 => hkb h2.symm)]; exact hk⟩

theorem slots0_HP (n pa : ℕ) (t : Topic) (hpa : pa < n) :
    ((List.range n).map (fun k => if k = pa then some t else none)).getD pa none
      = some t := by
  rw [List.getD_eq_getElem?_getD, List.getElem?_map,
    List.getElem?_eq_getElem (by simpa using hpa)]
  simp

theorem pass1Step_HP (lists : List (List Topic)) (anchor : Topic) (pa : ℕ)
    (st : InnerState) (hst : ∃ k t, st.slots.getD k none = some t) (pb : ℕ) :
    ∃ k t, (pass1Step lists anchor pa st pb).slots.getD k none = some t := by
  unfold pass1Step
  by_cases h1 : pb = pa
  · rw [if_pos h1]
    exact hst
  · rw [if_neg h1]
    cases hbm : _best_match anchor (lists.getD pb []) (st.used.getD pb ∅) with
    | none => exact hst
    | some v =>
      obtain ⟨idx, score⟩ := v
      dsimp only
      exact set_some_HP st.slots pb _ hst

theorem foldRange_HP (lists : List (List Topic)) (anchor : Topic) (pa : ℕ) :
    ∀ (L : List ℕ) (st : InnerState), (∃ k t, st.slots.getD k none = some t) →
      ∃ k t, ((L.foldl (pass1Step lists anchor pa) st).slots.getD k none) = some t
  | [], _, hst => hst
  | pb :: L, st, hst =>
    foldRange_HP lists anchor pa L _ (pass1Step_HP lists anchor pa st hst pb)

theorem pass1Topics_HP (lists : List (List Topic)) (n : ℕ) :
    ∀ (pa : ℕ) (tl : List Topic) (ai : ℕ) (used : List (Finset ℕ))
      (clusters : List Cluster),
      pa < n →
      (∀ c ∈ clusters, ∃ k t, c.topics.getD k none = some t) →
      ∀ c ∈ (pass1Topics lists n pa tl ai (used, clusters)).2,
        ∃ k t, c.topics.getD k none = some t
  | _, [], _, _, _, _, hcl => hcl
  | pa, t :: tl, ai, used, clusters, hpa, hcl => by
    unfold pass1Topics
    split_ifs with h1
    · exact pass1Topics_HP lists n pa tl (ai + 1) used clusters hpa hcl
    · refine pass1Topics_HP lists n pa tl (ai + 1) _ _ hpa ?_
      intro c hc
      rcases List.mem_append.mp hc with hc | hc
      · exact hcl c hc
      · rw [List.mem_singleton.mp hc]
        exact foldRange_HP lists t pa (List.range n) _ ⟨pa, t, slots0_HP n pa t hpa⟩

theorem pass1_HP (lists : List (List Topic)) :
    ∀ c ∈ (pass1 lists).2, ∃ k t, c.topics.getD k none = some t := by
  unfold pass1
  have main : ∀ (L : List ℕ), (∀ pa ∈ L, pa < lists.length) →
      ∀ (st : List (Finset ℕ) × List Cluster),
      (∀ c ∈ st.2, ∃ k t, c.topics.getD k none = some t) →
      ∀ c ∈ (L.foldl
          (fun st pa => pass1Topics lists lists.length pa (lists.getD pa []) 0 st)
          st).2, ∃ k t, c.topics.getD k none = some t := by
    intro L
    induction L with
    | nil => intro _ st hst; exact hst
    | cons pa L ih =>
      intro hL st hst
      rw [List.foldl_cons]
      refine ih (fun q hq => hL q (List.mem_cons_of_mem pa hq)) _ ?_
      intro c hc
      exact pass1Topics_HP lists lists.length pa (lists.getD pa []) 0 st.1 st.2
        (hL pa (List.mem_cons_self pa L)) hst c hc
  exact main (List.range lists.length) (fun pa hpa => List.mem_range.mp hpa)
    (List.replicate lists.length ∅, []) (fun c hc => absurd hc (List.not_mem_nil c))

theorem mergeSlots_getD_some : ∀ (a b : List (Option Topic)) (k : ℕ) (t : Topic),
    a.getD k none = some t → (mergeSlots a b).getD k none = some t
  | [], b, k, t, ha => by rw [mergeSlots]; exact ha
  | sa :: a, [], k, t, ha => by rw [mergeSlots]; exact ha
  | sa :: a, sb :: b, 0, t, ha => by
    simp only [mergeSlots]
    simp only [List.getD_cons_zero] at ha ⊢
    rw [ha]
  | sa :: a, sb :: b, q + 1, t, ha => by
    simp only [mergeSlots]
    simp only [List.getD_cons_succ] at ha ⊢
    exact mergeSlots_getD_some a b q t ha

theorem pass2Step_HP (providers : List String) (cs : List Cluster) (i : ℕ)
    (h : ∀ c ∈ cs, ∃ k t, c.topics.getD k none = some t) :
    ∀ c ∈ pass2Step providers cs i, ∃ k t, c.topics.getD k none = some t := by
  intro c hc
  unfold pass2Step at hc
  by_cases h1 : (cs.getD i default).match_method ≠ "unmatched"
  · rw [if_pos h1] at hc
    exact h c hc
  · rw [if_neg h1] at hc
    by_cases h2 : (cs.getD i default).merged_into ≠ none
    · rw [if_pos h2] at hc
      exact h c hc
    · rw [if_neg h2] at hc
      cases hfp : firstPresentName providers (cs.getD i default).topics with
      | none =>
        rw [hfp] at hc
        exact h c hc
      | some anchorPair =>
        rw [hfp] at hc
        obtain ⟨anchorA, topicA⟩ := anchorPair
        dsimp only at hc
        by_cases h3 : topicA.body_keywords = []
        · rw [if_pos h3] at hc
          exact h c hc
        · rw [if_neg h3] at hc
          cases hbj : findBestJ providers cs i anchorA topicA.body_keywords with
          | none =>
            rw [hbj] at hc
            exact h c hc
          | some bj =>
            rw [hbj] at hc
            dsimp only at hc
            have hilen : i < cs.length := by
              by_contra hni
              have hdef : cs.getD i default = default := by
                rw [List.getD_eq_getElem?_getD, List.getElem?_eq_none (not_lt.mp hni)]
                rfl
              rw [hdef] at h1
              exact h1 (by decide)
            have hHPi : ∃ k t, (cs.getD i default).topics.getD k none = some t := by
              have hgd : cs.getD i default = cs[i] := by
                rw [List.getD_eq_getElem?_getD, List.getElem?_eq_getElem hilen]
                rfl
              rw [hgd]
              exact h _ (List.getElem_mem hilen)
            by_cases hbjlen : bj < cs.length
            · rcases List.mem_or_eq_of_mem_set hc with hc1 | hceq
              · rcases List.mem_or_eq_of_mem_set hc1 with hc2 | hceq
                · exact h c hc2
                · rw [hceq]
                  dsimp only
                  rcases hHPi with ⟨k, t, hk⟩
                  exact ⟨k, t, mergeSlots_getD_some _ _ k t hk⟩
              · rw [hceq]
                dsimp only
                have hgd : cs.getD bj default = cs[bj] := by
                  rw [List.getD_eq_getElem?_getD, List.getElem?_eq_getElem hbjlen]
                  rfl
                rw [hgd]
                exact h _ (List.getElem_mem hbjlen)
            · have hset : ∀ (l : List Cluster) (x : Cluster), l.length = cs.length →
                  l.set bj x = l := fun l x hl =>
                List.set_eq_of_length_le (by rw [hl]; exact not_lt.mp hbjlen)
              rw [hset _ _ (by simp)] at hc
              rcases List.mem_or_eq_of_mem_set hc with hc2 | hceq
              · exact h c hc2
              · rw [hceq]
                dsimp only
                rcases hHPi with ⟨k, t, hk⟩
                exact ⟨k, t, mergeSlots_getD_some _ _ k t hk⟩

theorem pass2_HP (providers : List String) (cs : List Cluster)
    (h : ∀ c ∈ cs, ∃ k t, c.topics.getD k none = some t) :
    ∀ c ∈ pass2 providers cs, ∃ k t, c.topics.getD k none = some t := by
  unfold pass2
  have main : ∀ (L : List ℕ) (cs0 : List Cluster),
      (∀ c ∈ cs0, ∃ k t, c.topics.getD k none = some t) →
      ∀ c ∈ L.foldl (pass2Step providers) cs0,
        ∃ k t, c.topics.getD k none = some t := by
    intro L
    induction L with
    | nil => exact fun cs0 h0 => h0
    | cons i L ih =>
      intro cs0 h0
      rw [List.foldl_cons]
      exact ih _ (pass2Step_HP providers cs0 i h0)
  exact main _ cs h

theorem survivingClusters_HP (pt : List (String × List Topic)) :
    ∀ c ∈ survivingClusters pt, ∃ k t, c.topics.getD k none = some t := by
  intro c hc
  unfold survivingClusters at hc
  exact pass2_HP _ _ (pass1_HP _) c (List.mem_of_mem_filter hc)

theorem matchedOfCluster_canonical (providers : List String) (active : ℕ)
    (c : Cluster) :
    (matchedOfCluster providers active c).canonical_name =
      pyMaxByLen ((c.topics.filterMap id).map Topic.heading) := rfl

theorem extract_topics_no_headings (r : String) (h : ¬ pyStrip r.data = [])
    (hm : headingMatches r = []) :
    extract_topics r =
      [{ heading := "(no headings)", raw_heading := "(no headings)", level := 1,
         word_count := (pySplit r.data).length,
         coverage := if DETAILED_WORD_THRESHOLD ≤ (pySplit r.data).length then "detailed"
           else "mentioned",
         citations_in_section := _count_urls r.data,
         body_keywords := _extract_body_keywords r.data }] := by
  unfold extract_topics
  rw [if_neg h]
  dsimp only
  rw [hm]
  rfl

set_option maxHeartbeats 1000000 in
theorem match_two_singletons_exact (s1 s2 : String) (t1 t2 : Topic)
    (h : t1.heading = t2.heading) (hc1 : t1.coverage ≠ "absent")
    (hc2 : t2.coverage ≠ "absent") :
    match_topics [(s1, [t1]), (s2, [t2])] =
      [⟨t1.heading, [(s1, t1.coverage), (s2, t2.coverage)], "consensus", "exact"⟩] := by
  obtain ⟨h2, rh2, lv2, wc2, cov2, ci2, kw2⟩ := t2
  simp only [Topic.heading] at h
  subst h
  simp only [Topic.coverage] at hc2
  simp [match_topics_eq, survivingClusters, pass1, pass1Topics, pass1Step,
    _best_match, bmLoop, pass2, pass2Step, matchedOfCluster, pyMaxByLen,
    firstPresentName, findBestJ, fbjLoop, mergeSlots, bmFinish, hc1, hc2,
    List.range_succ, List.range_zero, List.foldl_cons, List.foldl_nil,
    List.getD_cons_zero, List.getD_cons_succ]

/-- C9: two active sources whose reports are non-empty but contain no heading
matches each yield exactly one synthetic Topic with heading the literal
sentinel at level 1, and the matcher puts the two synthetic topics into a
single cluster with match method exact, present for both sources. -/
theorem C9_flat_reports_cluster_exact (s1 s2 r1 r2 : String) (_hs : s1 ≠ s2)
    (h1 : ¬ pyStrip r1.data = []) (h2 : ¬ pyStrip r2.data = [])
    (hm1 : headingMatches r1 = []) (hm2 : headingMatches r2 = []) :
    (∃ t1, extract_topics r1 = [t1] ∧ t1.heading = "(no headings)" ∧ t1.level = 1) ∧
    (∃ t2, extract_topics r2 = [t2] ∧ t2.heading = "(no headings)" ∧ t2.level = 1) ∧
    ∃ cov1 cov2, cov1 ≠ "absent" ∧ cov2 ≠ "absent" ∧
      match_topics [(s1, extract_topics r1), (s2, extract_topics r2)] =
        [⟨"(no headings)", [(s1, cov1), (s2, cov2)], "consensus", "exact"⟩] := by
  rw [extract_topics_no_headings r1 h1 hm1, extract_topics_no_headings r2 h2 hm2]
  refine ⟨⟨_, rfl, rfl, rfl⟩, ⟨_, rfl, rfl, rfl⟩, ?_⟩
  have hcov1 : (if DETAILED_WORD_THRESHOLD ≤ (pySplit r1.data).length then "detailed"
      else "mentioned") ≠ "absent" := by split_ifs <;> decide
  have hcov2 : (if DETAILED_WORD_THRESHOLD ≤ (pySplit r2.data).length then "detailed"
      else "mentioned") ≠ "absent" := by split_ifs <;> decide
  exact ⟨_, _, hcov1, hcov2, match_two_singletons_exact s1 s2 _ _ rfl hcov1 hcov2⟩

theorem C9_flat_reports_cluster_exact_witness :
    (∃ t1, extract_topics "hello world" = [t1] ∧ t1.heading = "(no headings)" ∧
      t1.level = 1) ∧
    (∃ t2, extract_topics "other text" = [t2] ∧ t2.heading = "(no headings)" ∧
      t2.level = 1) ∧
    ∃ cov1 cov2, cov1 ≠ "absent" ∧ cov2 ≠ "absent" ∧
      match_topics [("x", extract_topics "hello world"), ("y", extract_topics "other text")] =
        [⟨"(no headings)", [("x", cov1), ("y", cov2)], "consensus", "exact"⟩] :=
  C9_flat_reports_cluster_exact "x" "y" "hello world" "other text"
    (by decide) (by decide) (by decide) (by decide) (by decide)

theorem C7_citation_overlap_witness :
    2 ≤ (["a", "b"] : List String).length ∧ (["a", "b"] : List String).Nodup ∧
    (["a", "b"] : List String).Pairwise (fun a b => pyStrLt a.data b.data = true) ∧
    ∀ p ∈ (["a", "b"] : List String),
      ∃ r ∈ ([⟨"b", true, "", [Citation.str "http://x.com"]⟩,
              ⟨"a", true, "", [Citation.str "http://x.com", Citation.str "http://y.com"]⟩] :
              List ProviderResult),
        r.provider = p ∧ "http://x.com" ∈ _extract_urls r.citations :=
  (C7_citation_overlap
    [⟨"b", true, "", [Citation.str "http://x.com"]⟩,
     ⟨"a", true, "", [Citation.str "http://x.com", Citation.str "http://y.com"]⟩]).2
    "http://x.com" ["a", "b"] (by decide)

/-- C5: for every surviving cluster, the canonical name of the MatchedTopic
built from it (match_topics maps matchedOfCluster over the surviving clusters)
is the heading of a present topic of maximal heading length sitting at the
earliest slot among the maxima: every present topic's heading is no longer,
and every present topic at a strictly earlier slot has a strictly shorter
heading. Cluster slots run over the sources in insertion order, which is also
the order in which members joined the cluster: Pass 1 fills only the anchor's
slot and slots of later sources (earlier sources are fully assigned by then),
scanning the other sources in order, and a Pass 2 merge joins two singleton
clusters whose absorbed anchor sits at a strictly later source slot. -/
theorem C5_canonical_longest_earliest (pt : List (String × List Topic))
    (c : Cluster) (hc : c ∈ survivingClusters pt) :
    ∃ k t, c.topics.getD k none = some t ∧
      (matchedOfCluster (pt.map Prod.fst) (pt.map Prod.fst).length c).canonical_name
        = t.heading ∧
      (∀ j u, c.topics.getD j none = some u →
        u.heading.length ≤ t.heading.length) ∧
      (∀ j u, j < k → c.topics.getD j none = some u →
        u.heading.length < t.heading.length) := by
  rcases survivingClusters_HP pt c hc with ⟨k0, t0, hk0⟩
  have hmem : t0 ∈ c.topics.filterMap id := mem_filterMap_of_slot c.topics k0 t0 hk0
  have hne : (c.topics.filterMap id).map Topic.heading ≠ [] := by
    intro hnil
    rw [List.map_eq_nil_iff] at hnil
    rw [hnil] at hmem
    exact List.not_mem_nil t0 hmem
  rcases pyMaxByLen_spec _ hne with ⟨j0, hj0, hpm, hle, hlt⟩
  have hj0p : j0 < (c.topics.filterMap id).length := by
    rw [List.length_map] at hj0
    exact hj0
  rcases fm_correspond c.topics j0 hj0p with ⟨k, hk, hstrictmap⟩
  have h2 : ((c.topics.filterMap id).map Topic.heading).getD j0 "" =
      ((c.topics.filterMap id).getD j0 default).heading := getD_map_heading _ _ hj0p
  refine ⟨k, (c.topics.filterMap id).getD j0 default, hk, ?_, ?_, ?_⟩
  · rw [matchedOfCluster_canonical, hpm, h2]
  · intro j u hju
    have humem : u ∈ c.topics.filterMap id := mem_filterMap_of_slot c.topics j u hju
    rcases mem_getD_of_mem _ u humem with ⟨m, hm, hmu⟩
    have h1 : ((c.topics.filterMap id).map Topic.heading).getD m "" = u.heading := by
      rw [getD_map_heading _ _ hm, hmu]
    have h3 := hle m (by rw [List.length_map]; exact hm)
    rw [h1, h2] at h3
    exact h3
  · intro j u hjk hju
    rcases hstrictmap j u hjk hju with ⟨j', hj', hj'u⟩
    have hj'p : j' < (c.topics.filterMap id).length := lt_trans hj' hj0p
    have h1 : ((c.topics.filterMap id).map Topic.heading).getD j' "" = u.heading := by
      rw [getD_map_heading _ _ hj'p, hj'u]
    have h3 := hlt j' hj'
    rw [h1, h2] at h3
    exact h3

theorem C5_canonical_longest_earliest_witness :
    ((survivingClusters [("x", [tABGDE]), ("y", [tABG])]).getD 0 default
        ∈ survivingClusters [("x", [tABGDE]), ("y", [tABG])]) ∧
    ∃ k t,
      ((survivingClusters [("x", [tABGDE]), ("y", [tABG])]).getD 0
          default).topics.getD k none = some t ∧
      (matchedOfCluster
          (([("x", [tABGDE]), ("y", [tABG])] :
              List (String × List Topic)).map Prod.fst)
          (([("x", [tABGDE]), ("y", [tABG])] :
              List (String × List Topic)).map Prod.fst).length
          ((survivingClusters [("x", [tABGDE]), ("y", [tABG])]).getD 0
            default)).canonical_name = t.heading ∧
      (∀ j u, ((survivingClusters [("x", [tABGDE]), ("y", [tABG])]).getD 0
          default).topics.getD j none = some u →
        u.heading.length ≤ t.heading.length) ∧
      (∀ j u, j < k → ((survivingClusters [("x", [tABGDE]), ("y", [tABG])]).getD 0
          default).topics.getD j none = some u →
        u.heading.length < t.heading.length) :=
  ⟨by decide, C5_canonical_longest_earliest [("x", [tABGDE]), ("y", [tABG])] _ (by decide)⟩

/-! Lemmas for the Pass 2 merge characterization. -/

theorem clusterAnchor_getD (providers : List String) (cs : List Cluster) (j : ℕ) :
    clusterAnchor providers cs j =
      firstPresentName providers (cs.getD j default).topics := rfl

theorem partnerSim_eq (providers : List String) (cs : List Cluster)
    (kwsA : List String) (j : ℕ) (nmB : String) (tB : Topic)
    (h : clusterAnchor providers cs j = some (nmB, tB)) :
    partnerSim providers cs kwsA j =
      _jaccard_similarity_sets kwsA tB.body_keywords := by
  unfold partnerSim
  rw [h]

theorem fbjLoop_skip (providers : List String) (i : ℕ) (anchorA : String)
    (kwsA : List String) (cb : Cluster) (rest : List Cluster) (j : ℕ)
    (bJ : Option ℕ) (bS : ℚ)
    (hskip : ¬(i < j ∧ cb.match_method = "unmatched" ∧ cb.merged_into = none ∧
      ∃ nmB tB, firstPresentName providers cb.topics = some (nmB, tB) ∧
        nmB ≠ anchorA ∧ tB.body_keywords ≠ [])) :
    fbjLoop providers i anchorA kwsA (cb :: rest) j bJ bS =
      fbjLoop providers i anchorA kwsA rest (j + 1) bJ bS := by
  simp only [fbjLoop]
  by_cases h1 : j ≤ i
  · rw [if_pos h1]
  · rw [if_neg h1]
    by_cases h2 : cb.match_method ≠ "unmatched"
    · rw [if_pos h2]
    · rw [if_neg h2]
      by_cases h3 : cb.merged_into ≠ none
      · rw [if_pos h3]
      · rw [if_neg h3]
        cases hfp : firstPresentName providers cb.topics with
        | none => rfl
        | some pr =>
          obtain ⟨nmB, tB⟩ := pr
          dsimp only
          by_cases h4 : nmB = anchorA
          · rw [if_pos h4]
          · rw [if_neg h4]
            by_cases h5 : tB.body_keywords = []
            · rw [if_pos h5]
            · exact absurd ⟨not_le.mp h1, not_not.mp h2, not_not.mp h3,
                nmB, tB, hfp, h4, h5⟩ hskip

theorem fbjLoop_elig (providers : List String) (i : ℕ) (anchorA : String)
    (kwsA : List String) (cb : Cluster) (rest : List Cluster) (j : ℕ)
    (bJ : Option ℕ) (bS : ℚ)
    (h1 : i < j) (h2 : cb.match_method = "unmatched") (h3 : cb.merged_into = none)
    (nmB : String) (tB : Topic)
    (hfp : firstPresentName providers cb.topics = some (nmB, tB))
    (h4 : nmB ≠ anchorA) (h5 : tB.body_keywords ≠ []) :
    fbjLoop providers i anchorA kwsA (cb :: rest) j bJ bS =
      if bS < _jaccard_similarity_sets kwsA tB.body_keywords then
        fbjLoop providers i anchorA kwsA rest (j + 1) (some j)
          (_jaccard_similarity_sets kwsA tB.body_keywords)
      else fbjLoop providers i anchorA kwsA rest (j + 1) bJ bS := by
  simp only [fbjLoop]
  rw [if_neg (not_le.mpr h1), if_neg (not_not.mpr h2), if_neg (not_not.mpr h3), hfp]
  dsimp only
  rw [if_neg h4, if_neg h5]

theorem fbj_loop_keep (providers : List String) (cs : List Cluster) (i : ℕ)
    (nmA : String) (kwsA : List String) (b0 : ℕ) (M : ℚ) :
    ∀ (l : List Cluster) (idx : ℕ),
      l = cs.drop idx →
      (∀ q, idx ≤ q → eligPartner providers cs i nmA q →
        partnerSim providers cs kwsA q ≤ M) →
      fbjLoop providers i nmA kwsA l idx (some b0) M = some b0 := by
  intro l
  induction l with
  | nil => intro idx _ _; rfl
  | cons c rest ih =>
    intro idx hdrop hall
    obtain ⟨hlen, hc, hrest⟩ := drop_cons_facts cs c rest idx hdrop
    by_cases he : i < idx ∧ c.match_method = "unmatched" ∧ c.merged_into = none ∧
        ∃ nmB tB, firstPresentName providers c.topics = some (nmB, tB) ∧
          nmB ≠ nmA ∧ tB.body_keywords ≠ []
    · obtain ⟨h1, h2, h3, nmB, tB, hfp, h4, h5⟩ := he
      have hca : clusterAnchor providers cs idx = some (nmB, tB) := by
        rw [clusterAnchor_getD, hc]
        exact hfp
      have heligidx : eligPartner providers cs i nmA idx :=
        ⟨h1, ⟨hlen, by rw [hc]; exact h2, by rw [hc]; exact h3⟩, nmB, tB, hca, h4, h5⟩
      have hsim := hall idx le_rfl heligidx
      rw [partnerSim_eq providers cs kwsA idx nmB tB hca] at hsim
      rw [fbjLoop_elig providers i nmA kwsA c rest idx (some b0) M h1 h2 h3
        nmB tB hfp h4 h5, if_neg (not_lt.mpr hsim)]
      exact ih (idx + 1) hrest (fun q hq => hall q (le_trans (Nat.le_succ idx) hq))
    · rw [fbjLoop_skip providers i nmA kwsA c rest idx (some b0) M he]
      exact ih (idx + 1) hrest (fun q hq => hall q (le_trans (Nat.le_succ idx) hq))

theorem fbj_loop_found (providers : List String) (cs : List Cluster) (i : ℕ)
    (nmA : String) (kwsA : List String) (b0 : ℕ)
    (helig : eligPartner providers cs i nmA b0)
    (hmax : ∀ q, eligPartner providers cs i nmA q →
      partnerSim providers cs kwsA q ≤ partnerSim providers cs kwsA b0)
    (hfirst : ∀ q, q < b0 → eligPartner providers cs i nmA q →
      partnerSim providers cs kwsA q < partnerSim providers cs kwsA b0) :
    ∀ (l : List Cluster) (idx : ℕ) (bJ : Option ℕ) (bS : ℚ),
      l = cs.drop idx →
      idx ≤ b0 →
      bS < partnerSim providers cs kwsA b0 →
      fbjLoop providers i nmA kwsA l idx bJ bS = some b0 := by
  intro l
  induction l with
  | nil =>
    intro idx bJ bS hdrop hidx _
    exfalso
    have hlen : cs.length ≤ idx := List.drop_eq_nil_iff.mp hdrop.symm
    have hb0 : b0 < cs.length := helig.2.1.1
    omega
  | cons c rest ih =>
    intro idx bJ bS hdrop hidx hbs
    obtain ⟨hlen, hc, hrest⟩ := drop_cons_facts cs c rest idx hdrop
    by_cases he : i < idx ∧ c.match_method = "unmatched" ∧ c.merged_into = none ∧
        ∃ nmB tB, firstPresentName providers c.topics = some (nmB, tB) ∧
          nmB ≠ nmA ∧ tB.body_keywords ≠ []
    · obtain ⟨h1, h2, h3, nmB, tB, hfp, h4, h5⟩ := he
      have hca : clusterAnchor providers cs idx = some (nmB, tB) := by
        rw [clusterAnchor_getD, hc]
        exact hfp
      have hsimeq : partnerSim providers cs kwsA idx =
          _jaccard_similarity_sets kwsA tB.body_keywords :=
        partnerSim_eq providers cs kwsA idx nmB tB hca
      have heligidx : eligPartner providers cs i nmA idx :=
        ⟨h1, ⟨hlen, by rw [hc]; exact h2, by rw [hc]; exact h3⟩, nmB, tB, hca, h4, h5⟩
      rw [fbjLoop_elig providers i nmA kwsA c rest idx bJ bS h1 h2 h3 nmB tB hfp h4 h5]
      by_cases heq : idx = b0
      · subst heq
        rw [← hsimeq, if_pos hbs]
        exact fbj_loop_keep providers cs i nmA kwsA idx
          (partnerSim providers cs kwsA idx) rest (idx + 1) hrest
          (fun q _ hq => hmax q hq)
      · have hltb : idx < b0 := lt_of_le_of_ne hidx heq
        have hsless := hfirst idx hltb heligidx
        by_cases hup : bS < _jaccard_similarity_sets kwsA tB.body_keywords
        · rw [if_pos hup]
          exact ih (idx + 1) (some idx) _ hrest (by omega)
            (by rw [← hsimeq]; exact hsless)
        · rw [if_neg hup]
          exact ih (idx + 1) bJ bS hrest (by omega) hbs
    · rw [fbjLoop_skip providers i nmA kwsA c rest idx bJ bS he]
      have hne0 : idx ≠ b0 := by
        intro hidx0
        subst hidx0
        obtain ⟨e1, ⟨el, e2, e3⟩, enmB, etB, eca, e4, e5⟩ := helig
        rw [clusterAnchor_getD, hc] at eca
        rw [hc] at e2 e3
        exact he ⟨e1, e2, e3, enmB, etB, eca, e4, e5⟩
      exact ih (idx + 1) bJ bS hrest (by omega) hbs

theorem exists_first_argmax (P : ℕ → Prop) (f : ℕ → ℚ) (n : ℕ)
    (hbd : ∀ q, P q → q < n) (hne : ∃ q, P q) :
    ∃ j, P j ∧ (∀ q, P q → f q ≤ f j) ∧ (∀ q, q < j → P q → f q < f j) := by
  classical
  obtain ⟨q0, hq0⟩ := hne
  have hTne : ((Finset.range n).filter P).Nonempty :=
    ⟨q0, by rw [Finset.mem_filter, Finset.mem_range]; exact ⟨hbd q0 hq0, hq0⟩⟩
  obtain ⟨qM, hqM, hqMeq⟩ := Finset.mem_image.mp
    (Finset.max'_mem (((Finset.range n).filter P).image f) (hTne.image f))
  have hexP : ∃ q, P q ∧
      f q = (((Finset.range n).filter P).image f).max' (hTne.image f) :=
    ⟨qM, (Finset.mem_filter.mp hqM).2, hqMeq⟩
  refine ⟨Nat.find hexP, (Nat.find_spec hexP).1, ?_, ?_⟩
  · intro q hq
    rw [(Nat.find_spec hexP).2]
    exact Finset.le_max' _ _ (Finset.mem_image_of_mem f
      (by rw [Finset.mem_filter, Finset.mem_range]; exact ⟨hbd q hq, hq⟩))
  · intro q hq hP
    have hle : f q ≤ f (Nat.find hexP) := by
      rw [(Nat.find_spec hexP).2]
      exact Finset.le_max' _ _ (Finset.mem_image_of_mem f
        (by rw [Finset.mem_filter, Finset.mem_range]; exact ⟨hbd q hP, hP⟩))
    rcases lt_or_eq_of_le hle with h | h
    · exact h
    · exact absurd ⟨hP, h.trans (Nat.find_spec hexP).2⟩ (Nat.find_min hexP hq)

theorem getD_set_self {α : Type} (l : List α) (n : ℕ) (a d : α) (h : n < l.length) :
    (l.set n a).getD n d = a := by
  rw [List.getD_eq_getElem?_getD, List.getElem?_set_self h]
  rfl

theorem mergeSlots_getD_copy : ∀ (a b : List (Option Topic)) (p : ℕ),
    p < a.length → a.getD p none = none →
    (mergeSlots a b).getD p none = b.getD p none
  | [], _, p, hp, _ => absurd hp (by simp)
  | sa :: a, [], p, _, ha => by
    rw [mergeSlots, ha]
    rfl
  | sa :: a, sb :: b, 0, _, ha => by
    simp only [mergeSlots]
    simp only [List.getD_cons_zero] at ha ⊢
    rw [ha]
  | sa :: a, sb :: b, p + 1, hp, ha => by
    simp only [mergeSlots]
    simp only [List.getD_cons_succ] at ha ⊢
    exact mergeSlots_getD_copy a b p (by simpa using hp) ha

theorem pass2Step_skips (providers : List String) (cs2 : List Cluster) (i2 : ℕ)
    (h : (cs2.getD i2 default).match_method ≠ "unmatched" ∨
      (cs2.getD i2 default).merged_into ≠ none) :
    pass2Step providers cs2 i2 = cs2 := by
  unfold pass2Step
  by_cases h1 : (cs2.getD i2 default).match_method ≠ "unmatched"
  · rw [if_pos h1]
  · rw [if_neg h1, if_pos (h.resolve_left h1)]

/-- C4 counterexample to the unamended claim: two still-unmatched clusters
anchored on different sources whose anchor keyword sets are both empty have
keyword Jaccard similarity 1.0, which is at least the 0.30 content threshold,
yet Pass 2 merges nothing: both clusters stay unmatched and both produce
output. The code skips any cluster whose anchor keyword set is empty, on
either side of a candidate merge. -/
theorem C4_empty_keywords_no_merge :
    _jaccard_similarity_sets [] [] = 1 ∧
    CONTENT_MATCH_THRESHOLD ≤ (1 : ℚ) ∧
    tQuantum.body_keywords = [] ∧ tCompliance.body_keywords = [] ∧
    (match_topics [("x", [tQuantum]), ("y", [tCompliance])]).map
      MatchedTopic.match_method = ["unmatched", "unmatched"] := by decide

/-- C4 (amended with: both the merging cluster's anchor keyword set and the
partner's anchor keyword set must be non-empty): a Pass 2 step on a cluster i
that is still open and unmatched, whose anchor topic has non-empty body
keywords, merges with its best eligible partner whenever some strictly later
eligible partner — still unmatched, unabsorbed, anchored on a different
source, with non-empty anchor keywords — reaches keyword Jaccard similarity
0.30: the accepted partner is eligible, reaches the threshold, attains the
maximum similarity over all eligible partners, earliest on ties; the step
rewrites exactly clusters i and j, giving i the slot merge and method
content-fuzzy and marking j absorbed; the merge keeps every populated slot of
i and copies the partner's slots into the empty ones; and any cluster that is
no longer unmatched or already absorbed is skipped by every Pass 2 step, so no
cluster merges twice in the pass. -/
theorem C4_pass2_merge_amended (providers : List String) (cs : List Cluster)
    (i : ℕ) (nmA : String) (tA : Topic)
    (hopen : openUnmatched cs i)
    (hanchor : clusterAnchor providers cs i = some (nmA, tA))
    (hkws : tA.body_keywords ≠ [])
    (hex : ∃ j, eligPartner providers cs i nmA j ∧
      CONTENT_MATCH_THRESHOLD ≤ partnerSim providers cs tA.body_keywords j) :
    ∃ j', eligPartner providers cs i nmA j' ∧
      CONTENT_MATCH_THRESHOLD ≤ partnerSim providers cs tA.body_keywords j' ∧
      (∀ q, eligPartner providers cs i nmA q →
        partnerSim providers cs tA.body_keywords q ≤
          partnerSim providers cs tA.body_keywords j') ∧
      (∀ q, q < j' → eligPartner providers cs i nmA q →
        partnerSim providers cs tA.body_keywords q <
          partnerSim providers cs tA.body_keywords j') ∧
      pass2Step providers cs i =
        (cs.set i { cs.getD i default with
            topics := mergeSlots (cs.getD i default).topics
              (cs.getD j' default).topics,
            match_method := "content-fuzzy" }).set j'
          { cs.getD j' default with merged_into := some i } ∧
      (∀ p t, (cs.getD i default).topics.getD p none = some t →
        (mergeSlots (cs.getD i default).topics
          (cs.getD j' default).topics).getD p none = some t) ∧
      (∀ p, p < (cs.getD i default).topics.length →
        (cs.getD i default).topics.getD p none = none →
        (mergeSlots (cs.getD i default).topics
            (cs.getD j' default).topics).getD p none =
          (cs.getD j' default).topics.getD p none) ∧
      ((pass2Step providers cs i).getD i default).match_method = "content-fuzzy" ∧
      ((pass2Step providers cs i).getD j' default).merged_into = some i ∧
      (∀ (cs2 : List Cluster) (i2 : ℕ),
        (cs2.getD i2 default).match_method ≠ "unmatched" ∨
          (cs2.getD i2 default).merged_into ≠ none →
        pass2Step providers cs2 i2 = cs2) := by
  obtain ⟨j0, hj0e, hj0s⟩ := hex
  obtain ⟨j', hj'e, hmax, hfirst⟩ := exists_first_argmax
    (eligPartner providers cs i nmA) (partnerSim providers cs tA.body_keywords)
    cs.length (fun q hq => hq.2.1.1) ⟨j0, hj0e⟩
  have hθ : CONTENT_MATCH_THRESHOLD ≤ partnerSim providers cs tA.body_keywords j' :=
    le_trans hj0s (hmax j0 hj0e)
  have hbj : findBestJ providers cs i nmA tA.body_keywords = some j' := by
    unfold findBestJ
    exact fbj_loop_found providers cs i nmA tA.body_keywords j' hj'e hmax hfirst
      cs 0 none CONTENT_SEED (List.drop_zero cs).symm (Nat.zero_le j')
      (lt_of_lt_of_le (by decide) hθ)
  have hfpn : firstPresentName providers (cs.getD i default).topics =
      some (nmA, tA) := hanchor
  have heq : pass2Step providers cs i =
      (cs.set i { cs.getD i default with
          topics := mergeSlots (cs.getD i default).topics
            (cs.getD j' default).topics,
          match_method := "content-fuzzy" }).set j'
        { cs.getD j' default with merged_into := some i } := by
    unfold pass2Step
    rw [if_neg (not_not.mpr hopen.2.1), if_neg (not_not.mpr hopen.2.2), hfpn]
    dsimp only
    rw [if_neg hkws, hbj]
  have hilen : i < cs.length := hopen.1
  have hj'len : j' < cs.length := hj'e.2.1.1
  have hij' : i ≠ j' := Nat.ne_of_lt hj'e.1
  have hmm : ((pass2Step providers cs i).getD i default).match_method =
      "content-fuzzy" := by
    rw [heq, getD_set_ne _ _ _ _ _ (fun h => hij' h.symm),
      getD_set_self cs i _ default hilen]
  have hmi : ((pass2Step providers cs i).getD j' default).merged_into = some i := by
    rw [heq, getD_set_self _ _ _ default (by rw [List.length_set]; exact hj'len)]
  exact ⟨j', hj'e, hθ, hmax, hfirst, heq,
    fun p t h => mergeSlots_getD_some _ _ p t h,
    fun p hp h => mergeSlots_getD_copy _ _ p hp h,
    hmm, hmi, fun cs2 i2 h => pass2Step_skips providers cs2 i2 h⟩

theorem C4_pass2_merge_amended_witness :
    ∃ j', eligPartner c4prov c4cs 0 "x" j' ∧
      CONTENT_MATCH_THRESHOLD ≤ partnerSim c4prov c4cs tQuantumK.body_keywords j' ∧
      (∀ q, eligPartner c4prov c4cs 0 "x" q →
        partnerSim c4prov c4cs tQuantumK.body_keywords q ≤
          partnerSim c4prov c4cs tQuantumK.body_keywords j') ∧
      (∀ q, q < j' → eligPartner c4prov c4cs 0 "x" q →
        partnerSim c4prov c4cs tQuantumK.body_keywords q <
          partnerSim c4prov c4cs tQuantumK.body_keywords j') ∧
      pass2Step c4prov c4cs 0 =
        (c4cs.set 0 { c4cs.getD 0 default with
            topics := mergeSlots (c4cs.getD 0 default).topics
              (c4cs.getD j' default).topics,
            match_method := "content-fuzzy" }).set j'
          { c4cs.getD j' default with merged_into := some 0 } ∧
      (∀ p t, (c4cs.getD 0 default).topics.getD p none = some t →
        (mergeSlots (c4cs.getD 0 default).topics
          (c4cs.getD j' default).topics).getD p none = some t) ∧
      (∀ p, p < (c4cs.getD 0 default).topics.length →
        (c4cs.getD 0 default).topics.getD p none = none →
        (mergeSlots (c4cs.getD 0 default).topics
            (c4cs.getD j' default).topics).getD p none =
          (c4cs.getD j' default).topics.getD p none) ∧
      ((pass2Step c4prov c4cs 0).getD 0 default).match_method = "content-fuzzy" ∧
      ((pass2Step c4prov c4cs 0).getD j' default).merged_into = some 0 ∧
      (∀ (cs2 : List Cluster) (i2 : ℕ),
        (cs2.getD i2 default).match_method ≠ "unmatched" ∨
          (cs2.getD i2 default).merged_into ≠ none →
        pass2Step c4prov cs2 i2 = cs2) :=
  C4_pass2_merge_amended c4prov c4cs 0 "x" tQuantumK
    ⟨by decide, by decide, by decide⟩ (by decide) (by decide)
    ⟨1, ⟨by decide, ⟨by decide, by decide, by decide⟩, "y", tComplianceK,
      by decide, by decide, by decide⟩, by decide⟩

/-! Multiset bookkeeping lemmas for the topic-conservation property. -/

theorem slotsMS_cons_some (t : Topic) (s : List (Option Topic)) :
    slotsMS (some t :: s) = {t} + slotsMS s := by
  simp [slotsMS, List.filterMap_cons, Multiset.cons_coe, Multiset.singleton_add]

theorem slotsMS_cons_none (s : List (Option Topic)) :
    slotsMS (none :: s) = slotsMS s := by
  simp [slotsMS, List.filterMap_cons]

theorem slotsMS_set_some : ∀ (s : List (Option Topic)) (p : ℕ) (x : Topic),
    p < s.length → s.getD p none = none →
    slotsMS (s.set p (some x)) = {x} + slotsMS s
  | [], p, _, hp, _ => absurd hp (by simp)
  | o :: s, 0, x, _, h0 => by
    rw [List.getD_cons_zero] at h0
    subst h0
    rw [List.set_cons_zero, slotsMS_cons_some, slotsMS_cons_none]
  | o :: s, p + 1, x, hp, h => by
    rw [List.getD_cons_succ] at h
    rw [List.set_cons_succ]
    cases o with
    | none =>
      rw [slotsMS_cons_none, slotsMS_cons_none]
      exact slotsMS_set_some s p x (by simpa using hp) h
    | some t =>
      rw [slotsMS_cons_some, slotsMS_cons_some,
        slotsMS_set_some s p x (by simpa using hp) h, add_left_comm]

theorem slots0_length (n pa : ℕ) (t : Topic) :
    ((List.range n).map (fun k => if k = pa then some t else none)).length = n := by
  rw [List.length_map, List.length_range]

theorem slots0_single (n pa : ℕ) (t : Topic) (hpa : pa < n) :
    slotSingle ((List.range n).map (fun k => if k = pa then some t else none)) pa :=
  ⟨⟨t, slots0_HP n pa t hpa⟩, fun j hj => slots0_slotP n pa j t hj⟩

theorem range_filterMap_slots0 (pa : ℕ) (t : Topic) :
    ∀ n, (List.range n).filterMap (fun k => if k = pa then some t else none) =
      if pa < n then [t] else []
  | 0 => by simp
  | n + 1 => by
    rw [List.range_succ, List.filterMap_append, range_filterMap_slots0 pa t n]
    by_cases h1 : pa < n
    · rw [if_pos h1, if_pos (by omega)]
      have h2 : ¬(n = pa) := by omega
      simp [List.filterMap_cons, h2]
    · by_cases h2 : pa = n
      · subst h2
        rw [if_neg h1, if_pos (by omega)]
        simp [List.filterMap_cons]
      · rw [if_neg h1, if_neg (by omega)]
        have h3 : ¬(n = pa) := fun h => h2 h.symm
        simp [List.filterMap_cons, h3]

theorem slotsMS_slots0 (n pa : ℕ) (t : Topic) (hpa : pa < n) :
    slotsMS ((List.range n).map (fun k => if k = pa then some t else none)) = {t} := by
  unfold slotsMS
  rw [List.filterMap_map]
  have hco : (id ∘ fun k => if k = pa then some t else none) =
      (fun k => if k = pa then some t else none) := rfl
  rw [hco, range_filterMap_slots0 pa t n, if_pos hpa]
  rfl

theorem sum_map_set (g : Cluster → Multiset Topic) :
    ∀ (cs : List Cluster) (j : ℕ) (x : Cluster), j < cs.length →
    ((cs.set j x).map g).sum + g (cs.getD j default) = (cs.map g).sum + g x
  | [], j, _, hj => absurd hj (by simp)
  | c :: cs, 0, x, _ => by
    rw [List.set_cons_zero, List.getD_cons_zero]
    simp only [List.map_cons, List.sum_cons]
    rw [add_comm (g x) ((cs.map g).sum), add_assoc, add_comm (g c), ← add_assoc,
      add_right_comm]
  | c :: cs, j + 1, x, hj => by
    rw [List.set_cons_succ, List.getD_cons_succ]
    simp only [List.map_cons, List.sum_cons]
    rw [add_assoc, sum_map_set g cs j x (by simpa using hj), ← add_assoc]

theorem survMS_eq_mapsum (cs : List Cluster) :
    survMS cs =
      (cs.map (fun c => if c.merged_into = none then slotsMS c.topics else 0)).sum := by
  unfold survMS
  induction cs with
  | nil => rfl
  | cons c cs ih =>
    rw [List.map_cons, List.sum_cons]
    by_cases h : c.merged_into = none
    · rw [List.filter_cons_of_pos (by simpa using h), List.map_cons, List.sum_cons,
        ih, if_pos h]
    · rw [List.filter_cons_of_neg (by simpa using h), ih, if_neg h, zero_add]

theorem survMS_eq_allMS (cs : List Cluster) (h : ∀ c ∈ cs, c.merged_into = none) :
    survMS cs = allMS cs := by
  unfold survMS allMS
  rw [List.filter_eq_self.mpr (fun c hc => by simpa using h c hc)]

theorem slotsMS_mergeSlots_disjoint : ∀ (a b : List (Option Topic)),
    b.length ≤ a.length →
    (∀ p, a.getD p none = none ∨ b.getD p none = none) →
    slotsMS (mergeSlots a b) = slotsMS a + slotsMS b
  | [], b, hlen, _ => by
    have hb : b = [] := List.eq_nil_of_length_eq_zero (Nat.le_zero.mp (by simpa using hlen))
    subst hb
    rw [mergeSlots]
    simp [slotsMS]
  | sa :: a, [], _, _ => by
    rw [mergeSlots, show slotsMS [] = 0 from rfl, add_zero]
  | sa :: a, sb :: b, hlen, hdisj => by
    have htail : ∀ p, a.getD p none = none ∨ b.getD p none = none := by
      intro p
      have := hdisj (p + 1)
      simpa [List.getD_cons_succ] using this
    have hlen2 : b.length ≤ a.length := by simpa using hlen
    cases hsa : sa with
    | some t =>
      have hsb : sb = none := by
        rcases hdisj 0 with h | h
        · rw [List.getD_cons_zero, hsa] at h
          exact absurd h (by simp)
        · rw [List.getD_cons_zero] at h
          exact h
      subst hsb
      simp only [mergeSlots]
      rw [slotsMS_cons_some, slotsMS_cons_some, slotsMS_cons_none,
        slotsMS_mergeSlots_disjoint a b hlen2 htail, ← add_assoc]
    | none =>
      simp only [mergeSlots]
      cases sb with
      | some u =>
        rw [slotsMS_cons_some, slotsMS_cons_none, slotsMS_cons_some,
          slotsMS_mergeSlots_disjoint a b hlen2 htail, add_left_comm]
      | none =>
        rw [slotsMS_cons_none, slotsMS_cons_none, slotsMS_cons_none]
        exact slotsMS_mergeSlots_disjoint a b hlen2 htail

theorem singles_disjoint (a b : List (Option Topic)) (ka kb : ℕ)
    (ha : slotSingle a ka) (hb : slotSingle b kb) (hne : ka ≠ kb) :
    ∀ p, a.getD p none = none ∨ b.getD p none = none := by
  intro p
  by_cases hp : p = ka
  · exact Or.inr (hb.2 p (fun h => hne (hp.symm.trans h)))
  · exact Or.inl (ha.2 p hp)

theorem usedMSpAux_congr (u v : Finset ℕ) : ∀ (l : List Topic) (i : ℕ),
    (∀ j, i ≤ j → (j ∈ u ↔ j ∈ v)) → usedMSpAux u l i = usedMSpAux v l i
  | [], _, _ => rfl
  | t :: rest, i, h => by
    simp only [usedMSpAux]
    rw [usedMSpAux_congr u v rest (i + 1) (fun j hj => h j (by omega))]
    congr 1
    by_cases hi : i ∈ u
    · rw [if_pos hi, if_pos ((h i le_rfl).mp hi)]
    · rw [if_neg hi, if_neg (fun hv => hi ((h i le_rfl).mpr hv))]

theorem usedMSpAux_insert (u : Finset ℕ) (idx : ℕ) (hidx : idx ∉ u) :
    ∀ (l : List Topic) (i : ℕ), i ≤ idx → idx < i + l.length →
    usedMSpAux (insert idx u) l i = {l.getD (idx - i) default} + usedMSpAux u l i
  | [], i, hle, hlt => by
    simp only [List.length_nil] at hlt
    omega
  | t :: rest, i, hle, hlt => by
    simp only [usedMSpAux]
    by_cases hi : i = idx
    · subst hi
      rw [if_pos (Finset.mem_insert_self i u), if_neg hidx, Nat.sub_self,
        List.getD_cons_zero, zero_add,
        usedMSpAux_congr (insert i u) u rest (i + 1) (fun j hj => by
          rw [Finset.mem_insert]
          exact ⟨fun h => h.elim (fun h1 => absurd h1 (by omega)) id, Or.inr⟩)]
    · have hsub : idx - i = (idx - (i + 1)) + 1 := by omega
      have hlt3 : idx < (i + 1) + rest.length := by
        simp only [List.length_cons] at hlt
        omega
      by_cases hiu : i ∈ u
      · rw [if_pos (Finset.mem_insert_of_mem hiu), if_pos hiu,
          usedMSpAux_insert u idx hidx rest (i + 1) (by omega) hlt3, hsub,
          List.getD_cons_succ, add_left_comm]
      · rw [if_neg (fun hmem => (Finset.mem_insert.mp hmem).elim hi hiu),
          if_neg hiu, zero_add, zero_add,
          usedMSpAux_insert u idx hidx rest (i + 1) (by omega) hlt3, hsub,
          List.getD_cons_succ]

theorem usedMSp_insert (l : List Topic) (u : Finset ℕ) (idx : ℕ)
    (hidx : idx ∉ u) (hlen : idx < l.length) :
    usedMSp l (insert idx u) = {l.getD idx default} + usedMSp l u := by
  unfold usedMSp
  have h := usedMSpAux_insert u idx hidx l 0 (Nat.zero_le idx) (by omega)
  simpa using h

theorem usedMS_set : ∀ (lists : List (List Topic)) (us : List (Finset ℕ)) (p idx : ℕ),
    us.length = lists.length → p < lists.length →
    idx ∉ us.getD p ∅ → idx < (lists.getD p []).length →
    usedMS lists (us.set p (insert idx (us.getD p ∅))) =
      {(lists.getD p []).getD idx default} + usedMS lists us
  | [], _, p, _, _, hp, _, _ => absurd hp (by simp)
  | _ :: _, [], _, _, hlen, _, _, _ => by simp at hlen
  | l :: ls, u :: us, 0, idx, _, _, hidx, hl => by
    simp only [List.getD_cons_zero] at hidx hl ⊢
    simp only [List.set_cons_zero]
    simp only [usedMS]
    rw [usedMSp_insert l u idx hidx hl, add_assoc]
  | l :: ls, u :: us, p + 1, idx, hlen, hp, hidx, hl => by
    simp only [List.getD_cons_succ] at hidx hl ⊢
    simp only [List.set_cons_succ]
    simp only [usedMS]
    rw [usedMS_set ls us p idx (by simpa using hlen) (by simpa using hp) hidx hl,
      add_left_comm]

theorem usedMSpAux_full (u : Finset ℕ) : ∀ (l : List Topic) (i : ℕ),
    (∀ j, j < l.length → i + j ∈ u) → usedMSpAux u l i = (l : Multiset Topic)
  | [], _, _ => rfl
  | t :: rest, i, h => by
    simp only [usedMSpAux]
    have h0 : i ∈ u := by simpa using h 0 (by simp)
    rw [if_pos h0, usedMSpAux_full u rest (i + 1) (fun j hj => by
      have h2 := h (j + 1) (by simp only [List.length_cons]; omega)
      have h3 : i + (j + 1) = (i + 1) + j := by omega
      rwa [h3] at h2)]
    simp [Multiset.cons_coe, Multiset.singleton_add]

theorem usedMS_full : ∀ (lists : List (List Topic)) (us : List (Finset ℕ)),
    us.length = lists.length →
    (∀ p, p < lists.length → ∀ idx, idx < (lists.getD p []).length →
      idx ∈ us.getD p ∅) →
    usedMS lists us = inputMS lists
  | [], [], _, _ => rfl
  | [], _ :: _, hlen, _ => by simp at hlen
  | _ :: _, [], hlen, _ => by simp at hlen
  | l :: ls, u :: us, hlen, hfull => by
    simp only [usedMS]
    have h0 : ∀ idx, idx < l.length → idx ∈ u := by
      have h := hfull 0 (by simp)
      simpa using h
    rw [usedMS_full ls us (by simpa using hlen) (fun p hp idx hidx => by
      have h := hfull (p + 1) (by simp only [List.length_cons]; omega) idx
        (by simpa using hidx)
      simpa using h)]
    unfold usedMSp
    rw [usedMSpAux_full u l 0 (fun j hj => by simpa using h0 j hj)]
    unfold inputMS
    rw [List.flatten_cons]
    simp

theorem usedMSp_empty (l : List Topic) : usedMSp l ∅ = 0 := by
  unfold usedMSp
  have haux : ∀ (l2 : List Topic) (i : ℕ), usedMSpAux ∅ l2 i = 0 := by
    intro l2
    induction l2 with
    | nil => intro i; rfl
    | cons t rest ih =>
      intro i
      simp [usedMSpAux, ih]
  exact haux l 0

theorem usedMS_replicate (lists : List (List Topic)) :
    ∀ m, usedMS lists (List.replicate m ∅) = 0 := by
  induction lists with
  | nil => intro m; rfl
  | cons l ls ih =>
    intro m
    cases m with
    | zero => rfl
    | succ m =>
      rw [List.replicate_succ]
      simp only [usedMS]
      rw [usedMSp_empty, ih m, add_zero]

theorem bm_loop_props (needle : Topic) (cands : List Topic) (used : Finset ℕ) :
    ∀ (l : List Topic) (i : ℕ) (bi : Option ℕ) (bs : ℚ) (idx : ℕ) (score : ℚ),
      l = cands.drop i →
      (∀ b, bi = some b → b < cands.length ∧ b ∉ used) →
      bmLoop needle used l i bi bs = some (idx, score) →
      idx < cands.length ∧ idx ∉ used := by
  intro l
  induction l with
  | nil =>
    intro i bi bs idx score _ hbi hr
    simp only [bmLoop] at hr
    cases bi with
    | none => simp [bmFinish] at hr
    | some b =>
      simp only [bmFinish] at hr
      split_ifs at hr
      have h := Option.some.inj hr
      rw [Prod.mk.injEq] at h
      obtain ⟨h1, _⟩ := h
      subst h1
      exact hbi b rfl
  | cons c rest ih =>
    intro i bi bs idx score hdrop hbi hr
    obtain ⟨hlen, hc, hrest⟩ := drop_cons_facts cands c rest i hdrop
    simp only [bmLoop] at hr
    by_cases hu : i ∈ used
    · rw [if_pos hu] at hr
      exact ih (i + 1) bi bs idx score hrest hbi hr
    · rw [if_neg hu] at hr
      by_cases hex : needle.heading = c.heading
      · rw [if_pos hex] at hr
        have h := Option.some.inj hr
        rw [Prod.mk.injEq] at h
        obtain ⟨h1, _⟩ := h
        subst h1
        exact ⟨hlen, hu⟩
      · rw [if_neg hex] at hr
        by_cases hup : bs < _jaccard_similarity needle.heading c.heading
        · rw [if_pos hup] at hr
          exact ih (i + 1) (some i) _ idx score hrest
            (fun b hb => by cases Option.some.inj hb; exact ⟨hlen, hu⟩) hr
        · rw [if_neg hup] at hr
          exact ih (i + 1) bi bs idx score hrest hbi hr

theorem best_match_props (needle : Topic) (cands : List Topic) (used : Finset ℕ)
    (idx : ℕ) (score : ℚ) (h : _best_match needle cands used = some (idx, score)) :
    idx < cands.length ∧ idx ∉ used := by
  unfold _best_match at h
  exact bm_loop_props needle cands used cands 0 none FUZZY_SEED idx score
    (List.drop_zero cands).symm (fun b hb => by simp at hb) h

theorem exchange_trans {S Sp F U Up UF : Multiset Topic}
    (h1 : Sp + U = S + Up) (h2 : F + Up = Sp + UF) : F + U = S + UF := by
  have key : (F + U) + Up = (S + UF) + Up := by
    calc (F + U) + Up = (F + Up) + U := by rw [add_right_comm]
      _ = (Sp + UF) + U := by rw [h2]
      _ = (Sp + U) + UF := by rw [add_right_comm]
      _ = (S + Up) + UF := by rw [h1]
      _ = (S + UF) + Up := by rw [add_right_comm]
  exact add_right_cancel key

theorem pass1Step_slots_length (lists : List (List Topic)) (anchor : Topic)
    (pa : ℕ) (st : InnerState) (pb : ℕ) :
    (pass1Step lists anchor pa st pb).slots.length = st.slots.length := by
  unfold pass1Step
  by_cases h1 : pb = pa
  · rw [if_pos h1]
  · rw [if_neg h1]
    cases hbm : _best_match anchor (lists.getD pb []) (st.used.getD pb ∅) with
    | none => rfl
    | some v =>
      obtain ⟨idx, score⟩ := v
      dsimp only
      rw [List.length_set]

theorem pass1Step_used_length (lists : List (List Topic)) (anchor : Topic)
    (pa : ℕ) (st : InnerState) (pb : ℕ) :
    (pass1Step lists anchor pa st pb).used.length = st.used.length := by
  unfold pass1Step
  by_cases h1 : pb = pa
  · rw [if_pos h1]
  · rw [if_neg h1]
    cases hbm : _best_match anchor (lists.getD pb []) (st.used.getD pb ∅) with
    | none => rfl
    | some v =>
      obtain ⟨idx, score⟩ := v
      dsimp only
      rw [List.length_set]

theorem pass1Step_slots_other (lists : List (List Topic)) (anchor : Topic)
    (pa : ℕ) (st : InnerState) (pb q : ℕ) (hq : q ≠ pb) :
    (pass1Step lists anchor pa st pb).slots.getD q none = st.slots.getD q none := by
  unfold pass1Step
  by_cases h1 : pb = pa
  · rw [if_pos h1]
  · rw [if_neg h1]
    cases hbm : _best_match anchor (lists.getD pb []) (st.used.getD pb ∅) with
    | none => rfl
    | some v =>
      obtain ⟨idx, score⟩ := v
      dsimp only
      rw [getD_set_ne _ _ _ _ _ (fun h => hq h.symm)]

theorem pass1Step_MS (lists : List (List Topic)) (anchor : Topic) (pa : ℕ)
    (st : InnerState) (pb : ℕ)
    (hul : st.used.length = lists.length)
    (hpbl : pb < lists.length)
    (hpbs : pb < st.slots.length)
    (hslot : pb ≠ pa → st.slots.getD pb none = none) :
    slotsMS (pass1Step lists anchor pa st pb).slots + usedMS lists st.used =
      slotsMS st.slots + usedMS lists (pass1Step lists anchor pa st pb).used := by
  unfold pass1Step
  by_cases h1 : pb = pa
  · rw [if_pos h1]
  · rw [if_neg h1]
    cases hbm : _best_match anchor (lists.getD pb []) (st.used.getD pb ∅) with
    | none => rfl
    | some v =>
      obtain ⟨idx, score⟩ := v
      obtain ⟨hidxlen, hidxu⟩ := best_match_props anchor _ _ idx score hbm
      dsimp only
      rw [slotsMS_set_some st.slots pb _ hpbs (hslot h1),
        usedMS_set lists st.used pb idx hul hpbl hidxu hidxlen,
        add_assoc, add_left_comm]

theorem foldRange_MS (lists : List (List Topic)) (anchor : Topic) (pa : ℕ) :
    ∀ (L : List ℕ) (st : InnerState),
      L.Nodup →
      (∀ pb ∈ L, pb < lists.length) →
      (∀ pb ∈ L, pb < st.slots.length) →
      st.used.length = lists.length →
      (∀ pb ∈ L, pb ≠ pa → st.slots.getD pb none = none) →
      slotsMS ((L.foldl (pass1Step lists anchor pa) st).slots) +
          usedMS lists st.used =
        slotsMS st.slots + usedMS lists ((L.foldl (pass1Step lists anchor pa) st).used)
  | [], _, _, _, _, _, _ => rfl
  | pb :: L, st, hnd, hbl, hbs, hul, hsl => by
    rw [List.foldl_cons]
    have hstep := pass1Step_MS lists anchor pa st pb hul
      (hbl pb (List.mem_cons_self pb L)) (hbs pb (List.mem_cons_self pb L))
      (fun h => hsl pb (List.mem_cons_self pb L) h)
    have hnd2 := List.nodup_cons.mp hnd
    have hih := foldRange_MS lists anchor pa L (pass1Step lists anchor pa st pb)
      hnd2.2
      (fun q hq => hbl q (List.mem_cons_of_mem pb hq))
      (fun q hq => by
        rw [pass1Step_slots_length]
        exact hbs q (List.mem_cons_of_mem pb hq))
      (by rw [pass1Step_used_length]; exact hul)
      (fun q hq hqpa => by
        rw [pass1Step_slots_other lists anchor pa st pb q (fun h => hnd2.1 (h ▸ hq))]
        exact hsl q (List.mem_cons_of_mem pb hq) hqpa)
    exact exchange_trans hstep hih

theorem foldRange_slots_length (lists : List (List Topic)) (anchor : Topic)
    (pa : ℕ) : ∀ (L : List ℕ) (st : InnerState),
    ((L.foldl (pass1Step lists anchor pa) st).slots.length) = st.slots.length
  | [], _ => rfl
  | pb :: L, st => by
    rw [List.foldl_cons, foldRange_slots_length lists anchor pa L _,
      pass1Step_slots_length]

theorem foldRange_used_length (lists : List (List Topic)) (anchor : Topic)
    (pa : ℕ) : ∀ (L : List ℕ) (st : InnerState),
    ((L.foldl (pass1Step lists anchor pa) st).used.length) = st.used.length
  | [], _ => rfl
  | pb :: L, st => by
    rw [List.foldl_cons, foldRange_used_length lists anchor pa L _,
      pass1Step_used_length]

theorem pass1Step_unmatched (lists : List (List Topic)) (anchor : Topic)
    (pa : ℕ) (st : InnerState) (pb : ℕ)
    (h : (pass1Step lists anchor pa st pb).method = "unmatched") :
    pass1Step lists anchor pa st pb = st := by
  unfold pass1Step at h ⊢
  by_cases h1 : pb = pa
  · rw [if_pos h1]
  · rw [if_neg h1] at h ⊢
    cases hbm : _best_match anchor (lists.getD pb []) (st.used.getD pb ∅) with
    | none => rfl
    | some v =>
      obtain ⟨idx, score⟩ := v
      rw [hbm] at h
      dsimp only at h
      exfalso
      by_cases hsc : score = 1
      · rw [if_pos hsc] at h
        by_cases hm : st.method = "unmatched"
        · rw [if_pos hm] at h
          exact absurd h (by decide)
        · rw [if_neg hm] at h
          exact hm h
      · rw [if_neg hsc] at h
        by_cases hm : st.method = "unmatched"
        · rw [if_pos hm] at h
          exact absurd h (by decide)
        · rw [if_neg hm] at h
          exact hm h

theorem foldRange_unmatched (lists : List (List Topic)) (anchor : Topic) (pa : ℕ) :
    ∀ (L : List ℕ) (st : InnerState),
      ((L.foldl (pass1Step lists anchor pa) st).method = "unmatched") →
      L.foldl (pass1Step lists anchor pa) st = st
  | [], _, _ => rfl
  | pb :: L, st, h => by
    rw [List.foldl_cons] at h ⊢
    have htail := foldRange_unmatched lists anchor pa L
      (pass1Step lists anchor pa st pb) h
    rw [htail] at h ⊢
    exact pass1Step_unmatched lists anchor pa st pb h

theorem allMS_append_single (cs : List Cluster) (c : Cluster) :
    allMS (cs ++ [c]) = allMS cs + slotsMS c.topics := by
  unfold allMS
  rw [List.map_append, List.sum_append]
  simp

theorem exchange_absorb {A C Ffin U Uf : Multiset Topic}
    (h : A + (Ffin + U) = (C + Ffin) + Uf) : A + U = C + Uf := by
  have key : (A + U) + Ffin = (C + Uf) + Ffin := by
    calc (A + U) + Ffin = A + (Ffin + U) := by rw [add_assoc, add_comm U Ffin]
      _ = (C + Ffin) + Uf := h
      _ = (C + Uf) + Ffin := by rw [add_right_comm]
  exact add_right_cancel key

theorem used_set_insert_mono (us : List (Finset ℕ)) (p idx : ℕ) :
    ∀ q, us.getD q ∅ ⊆ (us.set p (insert idx (us.getD p ∅))).getD q ∅ := by
  intro q
  by_cases hq : q = p
  · subst hq
    by_cases hlen : q < us.length
    · rw [getD_set_self us q _ ∅ hlen]
      exact Finset.subset_insert idx _
    · rw [List.set_eq_of_length_le (not_lt.mp hlen)]
  · rw [getD_set_ne us p q _ ∅ (fun h => hq h.symm)]

theorem pass1Step_used_mono (lists : List (List Topic)) (anchor : Topic)
    (pa : ℕ) (st : InnerState) (pb : ℕ) :
    ∀ p, st.used.getD p ∅ ⊆ (pass1Step lists anchor pa st pb).used.getD p ∅ := by
  intro p
  unfold pass1Step
  by_cases h1 : pb = pa
  · rw [if_pos h1]
  · rw [if_neg h1]
    cases hbm : _best_match anchor (lists.getD pb []) (st.used.getD pb ∅) with
    | none => exact subset_rfl
    | some v =>
      obtain ⟨idx, score⟩ := v
      dsimp only
      exact used_set_insert_mono st.used pb idx p

theorem foldRange_used_mono (lists : List (List Topic)) (anchor : Topic) (pa : ℕ) :
    ∀ (L : List ℕ) (st : InnerState) (p : ℕ),
      st.used.getD p ∅ ⊆ ((L.foldl (pass1Step lists anchor pa) st).used.getD p ∅)
  | [], _, _ => subset_rfl
  | pb :: L, st, p => by
    rw [List.foldl_cons]
    exact Finset.Subset.trans (pass1Step_used_mono lists anchor pa st pb p)
      (foldRange_used_mono lists anchor pa L _ p)

theorem pass1Topics_used_length (lists : List (List Topic)) (n pa : ℕ) :
    ∀ (tl : List Topic) (ai : ℕ) (used : List (Finset ℕ)) (clusters : List Cluster),
      (pass1Topics lists n pa tl ai (used, clusters)).1.length = used.length
  | [], _, _, _ => rfl
  | t :: tl, ai, used, clusters => by
    unfold pass1Topics
    split_ifs with h1
    · exact pass1Topics_used_length lists n pa tl (ai + 1) used clusters
    · rw [pass1Topics_used_length lists n pa tl (ai + 1) _ _]
      rw [foldRange_used_length]
      simp

theorem pass1Topics_used_mono (lists : List (List Topic)) (n pa : ℕ) :
    ∀ (tl : List Topic) (ai : ℕ) (used : List (Finset ℕ)) (clusters : List Cluster)
      (p : ℕ),
      used.getD p ∅ ⊆ (pass1Topics lists n pa tl ai (used, clusters)).1.getD p ∅
  | [], _, _, _, _ => subset_rfl
  | t :: tl, ai, used, clusters, p => by
    unfold pass1Topics
    split_ifs with h1
    · exact pass1Topics_used_mono lists n pa tl (ai + 1) used clusters p
    · refine Finset.Subset.trans ?_
        (pass1Topics_used_mono lists n pa tl (ai + 1) _ _ p)
      exact Finset.Subset.trans (used_set_insert_mono used pa ai p)
        (foldRange_used_mono lists t pa (List.range n)
          ⟨(List.range n).map (fun k => if k = pa then some t else none),
           used.set pa (insert ai (used.getD pa ∅)), "unmatched"⟩ p)

theorem pass1Topics_own_full (lists : List (List Topic)) (n pa : ℕ)
    (hpa : pa < lists.length) :
    ∀ (tl : List Topic) (ai : ℕ) (used : List (Finset ℕ)) (clusters : List Cluster),
      tl = (lists.getD pa []).drop ai →
      used.length = lists.length →
      ∀ idx, ai ≤ idx → idx < (lists.getD pa []).length →
        idx ∈ (pass1Topics lists n pa tl ai (used, clusters)).1.getD pa ∅
  | [], ai, used, clusters, hdrop, _, idx, hai, hlen => by
    exfalso
    have h := List.drop_eq_nil_iff.mp hdrop.symm
    omega
  | t :: tl, ai, used, clusters, hdrop, hul, idx, hai, hlen => by
    obtain ⟨hailen, hat, hrest⟩ := drop_cons_facts (lists.getD pa []) t tl ai hdrop
    unfold pass1Topics
    split_ifs with h1
    · by_cases hidx : idx = ai
      · subst hidx
        exact pass1Topics_used_mono lists n pa tl (idx + 1) used clusters pa h1
      · exact pass1Topics_own_full lists n pa hpa tl (ai + 1) used clusters hrest hul
          idx (by omega) hlen
    · by_cases hidx : idx = ai
      · subst hidx
        have h2 : idx ∈ (used.set pa (insert idx (used.getD pa ∅))).getD pa ∅ := by
          rw [getD_set_self used pa _ ∅ (by omega)]
          exact Finset.mem_insert_self idx _
        refine pass1Topics_used_mono lists n pa tl (idx + 1) _ _ pa ?_
        exact foldRange_used_mono lists t pa (List.range n)
          ⟨(List.range n).map (fun k => if k = pa then some t else none),
           used.set pa (insert idx (used.getD pa ∅)), "unmatched"⟩ pa h2
      · refine pass1Topics_own_full lists n pa hpa tl (ai + 1) _ _ hrest ?_ idx
          (by omega) hlen
        rw [foldRange_used_length]
        simp [hul]

theorem pass1Topics_MS (lists : List (List Topic)) (n pa : ℕ)
    (hn : n = lists.length) (hpa : pa < lists.length) :
    ∀ (tl : List Topic) (ai : ℕ) (used : List (Finset ℕ)) (clusters : List Cluster),
      tl = (lists.getD pa []).drop ai →
      used.length = lists.length →
      allMS (pass1Topics lists n pa tl ai (used, clusters)).2 + usedMS lists used =
        allMS clusters +
          usedMS lists (pass1Topics lists n pa tl ai (used, clusters)).1
  | [], _, _, _, _, _ => rfl
  | t :: tl, ai, used, clusters, hdrop, hul => by
    obtain ⟨hailen, hat, hrest⟩ := drop_cons_facts (lists.getD pa []) t tl ai hdrop
    unfold pass1Topics
    split_ifs with h1
    · exact pass1Topics_MS lists n pa hn hpa tl (ai + 1) used clusters hrest hul
    · have hU1 : usedMS lists (used.set pa (insert ai (used.getD pa ∅))) =
          {t} + usedMS lists used := by
        rw [usedMS_set lists used pa ai hul hpa h1 hailen, hat]
      have hfold := foldRange_MS lists t pa (List.range n)
        ⟨(List.range n).map (fun k => if k = pa then some t else none),
         used.set pa (insert ai (used.getD pa ∅)), "unmatched"⟩
        (List.nodup_range n)
        (fun pb hpb => hn ▸ List.mem_range.mp hpb)
        (fun pb hpb => by
          show pb < ((List.range n).map (fun k => if k = pa then some t else none)).length
          rw [slots0_length]
          exact List.mem_range.mp hpb)
        (by
          show (used.set pa (insert ai (used.getD pa ∅))).length = lists.length
          rw [List.length_set]
          exact hul)
        (fun pb _ hpb => slots0_slotP n pa pb t hpb)
      rw [slotsMS_slots0 n pa t (by omega), hU1, add_left_comm] at hfold
      have hcancel := add_left_cancel hfold
      have hih := pass1Topics_MS lists n pa hn hpa tl (ai + 1)
        ((List.range n).foldl (pass1Step lists t pa)
          ⟨(List.range n).map (fun k => if k = pa then some t else none),
           used.set pa (insert ai (used.getD pa ∅)), "unmatched"⟩).used
        (clusters ++ [⟨((List.range n).foldl (pass1Step lists t pa)
            ⟨(List.range n).map (fun k => if k = pa then some t else none),
             used.set pa (insert ai (used.getD pa ∅)), "unmatched"⟩).slots,
          ((List.range n).foldl (pass1Step lists t pa)
            ⟨(List.range n).map (fun k => if k = pa then some t else none),
             used.set pa (insert ai (used.getD pa ∅)), "unmatched"⟩).method, none⟩])
        hrest
        (by
          rw [foldRange_used_length]
          show (used.set pa (insert ai (used.getD pa ∅))).length = lists.length
          rw [List.length_set]
          exact hul)
      rw [allMS_append_single] at hih
      rw [← hcancel] at hih
      exact exchange_absorb hih

theorem pass1_MS_aux (lists : List (List Topic)) :
    ∀ (L : List ℕ) (st : List (Finset ℕ) × List Cluster),
      (∀ pa ∈ L, pa < lists.length) →
      st.1.length = lists.length →
      allMS (L.foldl (fun st pa =>
          pass1Topics lists lists.length pa (lists.getD pa []) 0 st) st).2 +
        usedMS lists st.1 =
      allMS st.2 + usedMS lists (L.foldl (fun st pa =>
          pass1Topics lists lists.length pa (lists.getD pa []) 0 st) st).1
  | [], _, _, _ => rfl
  | pa :: L, st, hL, hul => by
    rw [List.foldl_cons]
    have hpa := hL pa (List.mem_cons_self pa L)
    have hstep := pass1Topics_MS lists lists.length pa rfl hpa
      (lists.getD pa []) 0 st.1 st.2 (List.drop_zero _).symm hul
    have hih := pass1_MS_aux lists L
      (pass1Topics lists lists.length pa (lists.getD pa []) 0 st)
      (fun q hq => hL q (List.mem_cons_of_mem pa hq))
      ((pass1Topics_used_length lists lists.length pa
        (lists.getD pa []) 0 st.1 st.2).trans hul)
    exact exchange_trans hstep hih

theorem pass1_conserve (lists : List (List Topic)) :
    allMS (pass1 lists).2 = usedMS lists (pass1 lists).1 := by
  unfold pass1
  have h := pass1_MS_aux lists (List.range lists.length)
    (List.replicate lists.length ∅, [])
    (fun pa hpa => List.mem_range.mp hpa)
    (by simp)
  rw [usedMS_replicate lists lists.length] at h
  simpa [allMS] using h

theorem pass1_used_length (lists : List (List Topic)) :
    (pass1 lists).1.length = lists.length := by
  unfold pass1
  have main : ∀ (L : List ℕ) (st : List (Finset ℕ) × List Cluster),
      st.1.length = lists.length →
      (L.foldl (fun st pa =>
        pass1Topics lists lists.length pa (lists.getD pa []) 0 st) st).1.length =
        lists.length := by
    intro L
    induction L with
    | nil => exact fun st h => h
    | cons pa L ih =>
      intro st h
      rw [List.foldl_cons]
      exact ih _ ((pass1Topics_used_length lists lists.length pa
        (lists.getD pa []) 0 st.1 st.2).trans h)
  exact main _ _ (by simp)

theorem foldProviders_used_mono (lists : List (List Topic)) :
    ∀ (L : List ℕ) (st : List (Finset ℕ) × List Cluster) (p : ℕ),
      st.1.getD p ∅ ⊆ (L.foldl (fun st pa =>
        pass1Topics lists lists.length pa (lists.getD pa []) 0 st) st).1.getD p ∅
  | [], _, _ => subset_rfl
  | pa :: L, st, p => by
    rw [List.foldl_cons]
    exact Finset.Subset.trans
      (pass1Topics_used_mono lists lists.length pa (lists.getD pa []) 0 st.1 st.2 p)
      (foldProviders_used_mono lists L _ p)

theorem pass1_full (lists : List (List Topic)) :
    ∀ p, p < lists.length → ∀ idx, idx < (lists.getD p []).length →
      idx ∈ (pass1 lists).1.getD p ∅ := by
  have main : ∀ (L : List ℕ) (st : List (Finset ℕ) × List Cluster),
      st.1.length = lists.length →
      (∀ pa ∈ L, pa < lists.length) →
      ∀ p ∈ L, ∀ idx, idx < (lists.getD p []).length →
        idx ∈ (L.foldl (fun st pa =>
          pass1Topics lists lists.length pa (lists.getD pa []) 0 st) st).1.getD p ∅ := by
    intro L
    induction L with
    | nil =>
      intro st _ _ p hp
      exact absurd hp (List.not_mem_nil p)
    | cons pa L ih =>
      intro st hul hL p hp idx hidx
      rw [List.foldl_cons]
      rcases List.mem_cons.mp hp with hpeq | hpmem
      · subst hpeq
        refine foldProviders_used_mono lists L _ p ?_
        exact pass1Topics_own_full lists lists.length p
          (hL p (List.mem_cons_self p L)) (lists.getD p []) 0 st.1 st.2
          (List.drop_zero _).symm hul idx (Nat.zero_le idx) hidx
      · exact ih _ ((pass1Topics_used_length lists lists.length pa
          (lists.getD pa []) 0 st.1 st.2).trans hul)
          (fun q hq => hL q (List.mem_cons_of_mem pa hq)) p hpmem idx hidx
  intro p hp idx hidx
  unfold pass1
  exact main (List.range lists.length) (List.replicate lists.length ∅, [])
    (by simp) (fun pa hpa => List.mem_range.mp hpa) p (List.mem_range.mpr hp)
    idx hidx

theorem pass1_allMS (lists : List (List Topic)) :
    allMS (pass1 lists).2 = inputMS lists := by
  rw [pass1_conserve]
  exact usedMS_full lists (pass1 lists).1 (pass1_used_length lists)
    (fun p hp idx hidx => pass1_full lists p hp idx hidx)

theorem mergeSlots_length : ∀ (a b : List (Option Topic)),
    (mergeSlots a b).length = a.length
  | [], _ => by rw [mergeSlots]
  | sa :: a, [] => by rw [mergeSlots]
  | sa :: a, sb :: b => by
    simp only [mergeSlots, List.length_cons, mergeSlots_length a b]

theorem pass1Topics_P1 (lists : List (List Topic)) (n : ℕ) (hn : n = lists.length) :
    ∀ (pa : ℕ) (tl : List Topic) (ai : ℕ) (used : List (Finset ℕ))
      (clusters : List Cluster),
      pa < n →
      (∀ c ∈ clusters, c.merged_into = none ∧ c.topics.length = lists.length ∧
        (c.match_method = "unmatched" → ∃ k, slotSingle c.topics k)) →
      ∀ c ∈ (pass1Topics lists n pa tl ai (used, clusters)).2,
        c.merged_into = none ∧ c.topics.length = lists.length ∧
          (c.match_method = "unmatched" → ∃ k, slotSingle c.topics k)
  | _, [], _, _, _, _, hcl => hcl
  | pa, t :: tl, ai, used, clusters, hpa, hcl => by
    unfold pass1Topics
    split_ifs with h1
    · exact pass1Topics_P1 lists n hn pa tl (ai + 1) used clusters hpa hcl
    · refine pass1Topics_P1 lists n hn pa tl (ai + 1) _ _ hpa ?_
      intro c hc
      rcases List.mem_append.mp hc with hc | hc
      · exact hcl c hc
      · rw [List.mem_singleton.mp hc]
        refine ⟨rfl, ?_, ?_⟩
        · exact (foldRange_slots_length lists t pa (List.range n)
            ⟨(List.range n).map (fun k => if k = pa then some t else none),
             used.set pa (insert ai (used.getD pa ∅)), "unmatched"⟩).trans
            (by simp [hn])
        · intro hm
          have hslots := foldRange_unmatched lists t pa (List.range n)
            ⟨(List.range n).map (fun k => if k = pa then some t else none),
             used.set pa (insert ai (used.getD pa ∅)), "unmatched"⟩ hm
          refine ⟨pa, ?_⟩
          show slotSingle ((List.range n).foldl (pass1Step lists t pa)
            ⟨(List.range n).map (fun k => if k = pa then some t else none),
             used.set pa (insert ai (used.getD pa ∅)), "unmatched"⟩).slots pa
          rw [hslots]
          exact slots0_single n pa t (by omega)

theorem pass1_P1 (lists : List (List Topic)) :
    ∀ c ∈ (pass1 lists).2, c.merged_into = none ∧
      c.topics.length = lists.length ∧
      (c.match_method = "unmatched" → ∃ k, slotSingle c.topics k) := by
  unfold pass1
  have main : ∀ (L : List ℕ), (∀ pa ∈ L, pa < lists.length) →
      ∀ (st : List (Finset ℕ) × List Cluster),
      (∀ c ∈ st.2, c.merged_into = none ∧ c.topics.length = lists.length ∧
        (c.match_method = "unmatched" → ∃ k, slotSingle c.topics k)) →
      ∀ c ∈ (L.foldl (fun st pa =>
          pass1Topics lists lists.length pa (lists.getD pa []) 0 st) st).2,
        c.merged_into = none ∧ c.topics.length = lists.length ∧
          (c.match_method = "unmatched" → ∃ k, slotSingle c.topics k) := by
    intro L
    induction L with
    | nil => intro _ st hst; exact hst
    | cons pa L ih =>
      intro hL st hst
      rw [List.foldl_cons]
      refine ih (fun q hq => hL q (List.mem_cons_of_mem pa hq)) _ ?_
      intro c hc
      exact pass1Topics_P1 lists lists.length rfl pa (lists.getD pa []) 0 st.1 st.2
        (hL pa (List.mem_cons_self pa L)) hst c hc
  exact main (List.range lists.length) (fun pa hpa => List.mem_range.mp hpa)
    (List.replicate lists.length ∅, []) (fun c hc => absurd hc (List.not_mem_nil c))

theorem fpn_aux (providers : List String) :
    ∀ (s : List (Option Topic)) (off : ℕ) (nm : String) (t : Topic),
      (List.enumFrom off s).findSome?
        (fun p => p.2.map (fun t2 => (providers.getD p.1 "", t2))) = some (nm, t) →
      ∃ k, s.getD k none = some t ∧ nm = providers.getD (off + k) "" ∧
        ∀ j, j < k → s.getD j none = none
  | [], _, _, _, h => by simp at h
  | o :: rest, off, nm, t, h => by
    rw [List.enumFrom_cons, List.findSome?_cons] at h
    cases o with
    | some t0 =>
      simp only [Option.map_some'] at h
      have h2 := Option.some.inj h
      rw [Prod.mk.injEq] at h2
      obtain ⟨h3, h4⟩ := h2
      refine ⟨0, by rw [List.getD_cons_zero, h4], by rw [Nat.add_zero, h3], ?_⟩
      intro j hj
      exact absurd hj (Nat.not_lt_zero j)
    | none =>
      simp only [Option.map_none'] at h
      obtain ⟨k, hk1, hk2, hk3⟩ := fpn_aux providers rest (off + 1) nm t h
      refine ⟨k + 1, by rw [List.getD_cons_succ]; exact hk1,
        by rw [show off + (k + 1) = (off + 1) + k from by omega]; exact hk2, ?_⟩
      intro j hj
      cases j with
      | zero => rw [List.getD_cons_zero]
      | succ q =>
        rw [List.getD_cons_succ]
        exact hk3 q (by omega)

theorem firstPresentName_char (providers : List String) (s : List (Option Topic))
    (nm : String) (t : Topic)
    (h : firstPresentName providers s = some (nm, t)) :
    ∃ k, s.getD k none = some t ∧ nm = providers.getD k "" ∧
      ∀ j, j < k → s.getD j none = none := by
  have h2 : (List.enumFrom 0 s).findSome?
      (fun p => p.2.map (fun t2 => (providers.getD p.1 "", t2))) = some (nm, t) := h
  obtain ⟨k, hk1, hk2, hk3⟩ := fpn_aux providers s 0 nm t h2
  exact ⟨k, hk1, by simpa using hk2, hk3⟩

theorem firstPresentName_single (providers : List String) (s : List (Option Topic))
    (k : ℕ) (hs : slotSingle s k) (nm : String) (t : Topic)
    (h : firstPresentName providers s = some (nm, t)) :
    nm = providers.getD k "" := by
  obtain ⟨k2, hk1, hk2, _⟩ := firstPresentName_char providers s nm t h
  have hkk : k2 = k := by
    by_contra hne
    rw [hs.2 k2 hne] at hk1
    exact absurd hk1 (by simp)
  subst hkk
  exact hk2

theorem fbj_loop_some_props (providers : List String) (cs : List Cluster) (i : ℕ)
    (nmA : String) (kwsA : List String) :
    ∀ (l : List Cluster) (idx : ℕ) (bJ : Option ℕ) (bS : ℚ) (j : ℕ),
      l = cs.drop idx →
      (∀ b, bJ = some b → eligPartner providers cs i nmA b) →
      fbjLoop providers i nmA kwsA l idx bJ bS = some j →
      eligPartner providers cs i nmA j := by
  intro l
  induction l with
  | nil =>
    intro idx bJ bS j _ hbJ hr
    exact hbJ j hr
  | cons c rest ih =>
    intro idx bJ bS j hdrop hbJ hr
    obtain ⟨hlen, hc, hrest⟩ := drop_cons_facts cs c rest idx hdrop
    by_cases he : i < idx ∧ c.match_method = "unmatched" ∧ c.merged_into = none ∧
        ∃ nmB tB, firstPresentName providers c.topics = some (nmB, tB) ∧
          nmB ≠ nmA ∧ tB.body_keywords ≠ []
    · obtain ⟨h1, h2, h3, nmB, tB, hfp, h4, h5⟩ := he
      rw [fbjLoop_elig providers i nmA kwsA c rest idx bJ bS h1 h2 h3
        nmB tB hfp h4 h5] at hr
      have heligidx : eligPartner providers cs i nmA idx :=
        ⟨h1, ⟨hlen, by rw [hc]; exact h2, by rw [hc]; exact h3⟩, nmB, tB,
          (by rw [clusterAnchor_getD, hc]; exact hfp), h4, h5⟩
      by_cases hup : bS < _jaccard_similarity_sets kwsA tB.body_keywords
      · rw [if_pos hup] at hr
        exact ih (idx + 1) (some idx) _ j hrest
          (fun b hb => by cases Option.some.inj hb; exact heligidx) hr
      · rw [if_neg hup] at hr
        exact ih (idx + 1) bJ bS j hrest hbJ hr
    · rw [fbjLoop_skip providers i nmA kwsA c rest idx bJ bS he] at hr
      exact ih (idx + 1) bJ bS j hrest hbJ hr

theorem findBestJ_props (providers : List String) (cs : List Cluster) (i : ℕ)
    (nmA : String) (kwsA : List String) (j : ℕ)
    (h : findBestJ providers cs i nmA kwsA = some j) :
    eligPartner providers cs i nmA j := by
  unfold findBestJ at h
  exact fbj_loop_some_props providers cs i nmA kwsA cs 0 none CONTENT_SEED j
    (List.drop_zero cs).symm (fun b hb => by simp at hb) h

theorem pass2Step_conserve (providers : List String) (n : ℕ) (cs : List Cluster)
    (i : ℕ)
    (hinv : ∀ c ∈ cs, c.topics.length = n ∧
      (c.match_method = "unmatched" → ∃ k, slotSingle c.topics k)) :
    survMS (pass2Step providers cs i) = survMS cs ∧
    ∀ c ∈ pass2Step providers cs i, c.topics.length = n ∧
      (c.match_method = "unmatched" → ∃ k, slotSingle c.topics k) := by
  by_cases h1 : (cs.getD i default).match_method ≠ "unmatched"
  · rw [pass2Step_skips providers cs i (Or.inl h1)]
    exact ⟨rfl, hinv⟩
  · by_cases h2 : (cs.getD i default).merged_into ≠ none
    · rw [pass2Step_skips providers cs i (Or.inr h2)]
      exact ⟨rfl, hinv⟩
    · have hunm : (cs.getD i default).match_method = "unmatched" := not_not.mp h1
      have hmerged : (cs.getD i default).merged_into = none := not_not.mp h2
      cases hfp : firstPresentName providers (cs.getD i default).topics with
      | none =>
        have heq : pass2Step providers cs i = cs := by
          unfold pass2Step
          rw [if_neg h1, if_neg h2, hfp]
        rw [heq]
        exact ⟨rfl, hinv⟩
      | some pr =>
        obtain ⟨nmA, tA⟩ := pr
        by_cases h3 : tA.body_keywords = []
        · have heq : pass2Step providers cs i = cs := by
            unfold pass2Step
            rw [if_neg h1, if_neg h2, hfp]
            dsimp only
            rw [if_pos h3]
          rw [heq]
          exact ⟨rfl, hinv⟩
        · cases hbj : findBestJ providers cs i nmA tA.body_keywords with
          | none =>
            have heq : pass2Step providers cs i = cs := by
              unfold pass2Step
              rw [if_neg h1, if_neg h2, hfp]
              dsimp only
              rw [if_neg h3, hbj]
            rw [heq]
            exact ⟨rfl, hinv⟩
          | some bj =>
            have heq : pass2Step providers cs i =
                (cs.set i { cs.getD i default with
                    topics := mergeSlots (cs.getD i default).topics
                      (cs.getD bj default).topics,
                    match_method := "content-fuzzy" }).set bj
                  { cs.getD bj default with merged_into := some i } := by
              unfold pass2Step
              rw [if_neg h1, if_neg h2, hfp]
              dsimp only
              rw [if_neg h3, hbj]
            have helig := findBestJ_props providers cs i nmA tA.body_keywords bj hbj
            have hibj : i < bj := helig.1
            have hbjlen : bj < cs.length := helig.2.1.1
            have hbjunm : (cs.getD bj default).match_method = "unmatched" :=
              helig.2.1.2.1
            have hbjmerged : (cs.getD bj default).merged_into = none :=
              helig.2.1.2.2
            obtain ⟨nmB, tB, hfpB, hnmne, _⟩ := helig.2.2
            have hilen : i < cs.length := by
              by_contra hni
              have hdef : cs.getD i default = default := by
                rw [List.getD_eq_getElem?_getD, List.getElem?_eq_none (not_lt.mp hni)]
                rfl
              rw [hdef] at hunm
              exact absurd hunm (by decide)
            have hgdi : cs.getD i default = cs[i] := by
              rw [List.getD_eq_getElem?_getD, List.getElem?_eq_getElem hilen]
              rfl
            have hgdbj : cs.getD bj default = cs[bj] := by
              rw [List.getD_eq_getElem?_getD, List.getElem?_eq_getElem hbjlen]
              rfl
            have hinvi := hinv (cs.getD i default)
              (by rw [hgdi]; exact List.getElem_mem hilen)
            have hinvbj := hinv (cs.getD bj default)
              (by rw [hgdbj]; exact List.getElem_mem hbjlen)
            obtain ⟨ka, hka⟩ := hinvi.2 hunm
            obtain ⟨kb, hkb⟩ := hinvbj.2 hbjunm
            have hnmA : nmA = providers.getD ka "" :=
              firstPresentName_single providers _ ka hka nmA tA hfp
            have hnmB : nmB = providers.getD kb "" :=
              firstPresentName_single providers _ kb hkb nmB tB hfpB
            have hkane : ka ≠ kb := by
              intro hkk
              apply hnmne
              rw [hnmB, hnmA, hkk]
            have hdisj := singles_disjoint (cs.getD i default).topics
              (cs.getD bj default).topics ka kb hka hkb hkane
            have hlenba : (cs.getD bj default).topics.length ≤
                (cs.getD i default).topics.length := by
              rw [hinvi.1, hinvbj.1]
            have hms := slotsMS_mergeSlots_disjoint (cs.getD i default).topics
              (cs.getD bj default).topics hlenba hdisj
            have hgX : (fun c => if c.merged_into = none then slotsMS c.topics else 0)
                { cs.getD i default with
                  topics := mergeSlots (cs.getD i default).topics
                    (cs.getD bj default).topics,
                  match_method := "content-fuzzy" } =
                slotsMS (cs.getD i default).topics +
                  slotsMS (cs.getD bj default).topics := by
              show (if (cs.getD i default).merged_into = none then
                slotsMS (mergeSlots (cs.getD i default).topics
                  (cs.getD bj default).topics) else 0) = _
              rw [if_pos hmerged, hms]
            have hgY : (fun c => if c.merged_into = none then slotsMS c.topics else 0)
                { cs.getD bj default with merged_into := some i } = 0 := by
              show (if (some i : Option ℕ) = none then
                slotsMS (cs.getD bj default).topics else 0) = 0
              rw [if_neg (by simp)]
            have hgca : (fun c => if c.merged_into = none then slotsMS c.topics else 0)
                (cs.getD i default) = slotsMS (cs.getD i default).topics := by
              show (if (cs.getD i default).merged_into = none then
                slotsMS (cs.getD i default).topics else 0) = _
              rw [if_pos hmerged]
            have hgcb : (fun c => if c.merged_into = none then slotsMS c.topics else 0)
                (cs.getD bj default) = slotsMS (cs.getD bj default).topics := by
              show (if (cs.getD bj default).merged_into = none then
                slotsMS (cs.getD bj default).topics else 0) = _
              rw [if_pos hbjmerged]
            constructor
            · rw [heq, survMS_eq_mapsum, survMS_eq_mapsum]
              have hs1 := sum_map_set
                (fun c => if c.merged_into = none then slotsMS c.topics else 0)
                cs i ({ cs.getD i default with
                  topics := mergeSlots (cs.getD i default).topics
                    (cs.getD bj default).topics,
                  match_method := "content-fuzzy" }) hilen
              have hs2 := sum_map_set
                (fun c => if c.merged_into = none then slotsMS c.topics else 0)
                (cs.set i { cs.getD i default with
                  topics := mergeSlots (cs.getD i default).topics
                    (cs.getD bj default).topics,
                  match_method := "content-fuzzy" }) bj
                ({ cs.getD bj default with merged_into := some i })
                (by rw [List.length_set]; exact hbjlen)
              rw [hgX, hgca] at hs1
              rw [getD_set_ne cs i bj _ default (Nat.ne_of_lt hibj), hgcb, hgY,
                add_zero] at hs2
              rw [← add_assoc, add_right_comm] at hs1
              have hS1 := add_right_cancel hs1
              rw [hS1] at hs2
              exact add_right_cancel hs2
            · rw [heq]
              intro c hc
              rcases List.mem_or_eq_of_mem_set hc with hc1 | hceq
              · rcases List.mem_or_eq_of_mem_set hc1 with hc2 | hceq
                · exact hinv c hc2
                · rw [hceq]
                  refine ⟨?_, fun hm => ?_⟩
                  · show (mergeSlots (cs.getD i default).topics
                      (cs.getD bj default).topics).length = n
                    rw [mergeSlots_length]
                    exact hinvi.1
                  · have hm2 : "content-fuzzy" = "unmatched" := hm
                    exact absurd hm2 (by decide)
              · rw [hceq]
                refine ⟨?_, fun hm => ?_⟩
                · show (cs.getD bj default).topics.length = n
                  exact hinvbj.1
                · exact ⟨kb, hkb⟩

theorem pass2_conserve (providers : List String) (n : ℕ) :
    ∀ (L : List ℕ) (cs : List Cluster),
      (∀ c ∈ cs, c.topics.length = n ∧
        (c.match_method = "unmatched" → ∃ k, slotSingle c.topics k)) →
      survMS (L.foldl (pass2Step providers) cs) = survMS cs
  | [], _, _ => rfl
  | i :: L, cs, hinv => by
    rw [List.foldl_cons]
    obtain ⟨hsurv, hinv2⟩ := pass2Step_conserve providers n cs i hinv
    rw [pass2_conserve providers n L (pass2Step providers cs i) hinv2, hsurv]

/-- C1: the topics carried by the surviving clusters of match_topics — each of
which yields exactly one MatchedTopic of the output — form, as a multiset,
exactly the input topics of all sources: Pass 1 assigns every topic to exactly
one cluster (its used-index bookkeeping ends full and in one-to-one
correspondence with the cluster slots), and each Pass 2 merge transfers the
absorbed cluster's single present topic into an empty slot of the surviving
cluster while the absorbed cluster stops producing output. Hence no topic is
duplicated or dropped. -/
theorem C1_topics_partition (pt : List (String × List Topic)) :
    ((survivingClusters pt).map (fun c => slotsMS c.topics)).sum =
      inputMS (pt.map Prod.snd) := by
  have hstep : ((survivingClusters pt).map (fun c => slotsMS c.topics)).sum =
      survMS (pass2 (pt.map Prod.fst) (pass1 (pt.map Prod.snd)).2) := rfl
  rw [hstep]
  unfold pass2
  rw [pass2_conserve (pt.map Prod.fst) (pt.map Prod.snd).length
    (List.range (pass1 (pt.map Prod.snd)).2.length) (pass1 (pt.map Prod.snd)).2
    (fun c hc => ⟨(pass1_P1 (pt.map Prod.snd) c hc).2.1,
      (pass1_P1 (pt.map Prod.snd) c hc).2.2⟩)]
  rw [survMS_eq_allMS _ (fun c hc => (pass1_P1 (pt.map Prod.snd) c hc).1)]
  exact pass1_allMS (pt.map Prod.snd)

end DR
